import Mathlib

/-!
# Verification of `gen_daily_stat.py` (tokyo_covid19_stat)

A shallow embedding of the `DailyStatGenerator` class of
`src/gen_daily_stat.py` together with proofs about the claims of the
specification.

Modelling conventions:

* Python strings are modelled as `List Char` (`Str`).  A text file that
  Python iterates line by line is modelled as a `List Str` (the lines,
  without their trailing newline).  A file that fails to open with
  `OSError` is modelled as `none : Option (List Str)`.
* Python `dict`s are modelled as association lists with dict update
  semantics (`dictSet` overwrites the binding in place, otherwise
  appends).  No operation of the source ever iterates over a dict in
  insertion order (the outer dict is only iterated via `sorted(keys)`),
  so this representation is observationally faithful.
* Dates are modelled as `PyDate` (year/month/day triples).  The source
  keys its tables by ISO-format date strings; for the strings accepted by
  `datetime.date.fromisoformat` (Python <= 3.10 accepts exactly the
  canonical `YYYY-MM-DD` form) this is a bijection, and lexicographic
  string order coincides with the date order modelled by `dateLtB`.
* `int(...)` is modelled by `pyInt?` (surrounding whitespace, optional
  sign, decimal digits; the underscore digit-grouping and non-ASCII
  digits accepted by Python are not modelled, no claim depends on them).
* Functions that can raise an exception that the source does not catch
  (`IndexError`, `TypeError`, `KeyError`, `AttributeError`,
  `OverflowError`) return `Option`; `none` models the escaping exception.
-/

/-! ## Characters, whitespace, splitting -/

/-- Python strings, modelled as lists of characters. -/
abbrev Str := List Char

/-- The whitespace characters stripped by Python's `str.strip()`. -/
def pyWS (c : Char) : Bool :=
  c = ' ' || c = '\t' || c = '\n' || c = '\x0d' || c = '\x0b' || c = '\x0c'

/-- Model of `str.strip()`: drop whitespace from both ends. -/
def pyStrip (s : Str) : Str :=
  ((s.dropWhile pyWS).reverse.dropWhile pyWS).reverse

/-- Model of `str.split(',')`: split at every comma, keeping empty parts. -/
def splitComma : Str → List Str
  | [] => [[]]
  | c :: rest =>
    if c = ',' then [] :: splitComma rest
    else match splitComma rest with
      | [] => [[c]]
      | p :: ps => (c :: p) :: ps

/-! ## Decimal digits and `int()` / `'%d'` -/

def isDigitB (c : Char) : Bool := 48 ≤ c.toNat && c.toNat ≤ 57

def digitVal (c : Char) : Nat := c.toNat - 48

def digitChar (n : Nat) : Char := Char.ofNat (48 + n)

/-- Value of a digit string, most significant digit first. -/
def digitsVal (s : Str) : Nat := s.foldl (fun a c => a * 10 + digitVal c) 0

/-- Fuel-driven decimal rendering of a natural number (fuel `n + 1` always
suffices, see `natReprAux_spec`). -/
def natReprAux : Nat → Nat → Str
  | 0, _ => []
  | fuel + 1, n =>
    if n < 10 then [digitChar n]
    else natReprAux fuel (n / 10) ++ [digitChar (n % 10)]

/-- Decimal rendering of a natural number. -/
def natRepr (n : Nat) : Str := natReprAux (n + 1) n

/-- Model of Python's `'%d' % i`. -/
def intRepr (i : Int) : Str :=
  if i < 0 then '-' :: natRepr i.natAbs else natRepr i.natAbs

/-- Parse a nonempty all-digit string. -/
def digits? (s : Str) : Option Nat :=
  if s ≠ [] ∧ s.all isDigitB then some (digitsVal s) else none

/-- Model of Python's `int(str)`: optional surrounding whitespace, an
optional sign, then decimal digits.  Returns `none` where `int(...)`
raises `ValueError`. -/
def pyInt? (s : Str) : Option Int :=
  match pyStrip s with
  | [] => none
  | c :: rest =>
    if c = '+' then (digits? rest).map (fun n => (n : Int))
    else if c = '-' then (digits? rest).map (fun n => -(n : Int))
    else (digits? (c :: rest)).map (fun n => (n : Int))

/-! ## The calendar -/

/-- A Python `datetime.date`, and also the date any ISO date string held in
the generator's tables denotes. -/
structure PyDate where
  year : Nat
  month : Nat
  day : Nat
deriving DecidableEq, Repr

/-- Strict date order (lexicographic; equals Python's `date` order and the
lexicographic order of canonical ISO strings). -/
def dateLtB (a b : PyDate) : Bool :=
  a.year < b.year ||
    (a.year = b.year &&
      (a.month < b.month || (a.month = b.month && a.day < b.day)))

def dateLeB (a b : PyDate) : Bool := dateLtB a b || a = b

/-- Gregorian leap year, as in Python's `calendar`/`datetime`. -/
def isLeap (y : Nat) : Bool := y % 4 = 0 && (y % 100 ≠ 0 || y % 400 = 0)

/-- Days in a month of a given year. -/
def daysInMonth (y m : Nat) : Nat :=
  if m = 2 then (if isLeap y then 29 else 28)
  else if m = 4 ∨ m = 6 ∨ m = 9 ∨ m = 11 then 30
  else 31

/-- Model of `date - timedelta(days=1)`.  Python raises `OverflowError`
below `date(1, 1, 1)`; `none` models that. -/
def prevDate? (d : PyDate) : Option PyDate :=
  if 1 < d.day then some ⟨d.year, d.month, d.day - 1⟩
  else if 1 < d.month then
    some ⟨d.year, d.month - 1, daysInMonth d.year (d.month - 1)⟩
  else if 1 < d.year then some ⟨d.year - 1, 12, 31⟩
  else none

/-- A date representable by `datetime.date`. -/
def validDate (d : PyDate) : Bool :=
  1 ≤ d.year && d.year ≤ 9999 && 1 ≤ d.month && d.month ≤ 12 &&
    1 ≤ d.day && d.day ≤ daysInMonth d.year d.month

/-- Left-pad with `'0'` to the given width (Python `'%04d'`/`'%02d'`). -/
def padZero (w : Nat) (s : Str) : Str :=
  List.replicate (w - s.length) '0' ++ s

/-- Model of `datetime.date.isoformat`. -/
def isoformat (d : PyDate) : Str :=
  padZero 4 (natRepr d.year) ++ '-' :: (padZero 2 (natRepr d.month) ++
    '-' :: padZero 2 (natRepr d.day))

/-- Model of `datetime.date.fromisoformat` (Python <= 3.10: exactly the
canonical `YYYY-MM-DD` form of a representable date; `none` models
`ValueError`). -/
def fromisoformat? (s : Str) : Option PyDate :=
  match s with
  | [y1, y2, y3, y4, h1, m1, m2, h2, d1, d2] =>
    if h1 = '-' ∧ h2 = '-' ∧
        [y1, y2, y3, y4, m1, m2, d1, d2].all isDigitB then
      let d : PyDate :=
        ⟨digitsVal [y1, y2, y3, y4], digitsVal [m1, m2], digitsVal [d1, d2]⟩
      if validDate d then some d else none
    else none
  | _ => none

/-! ## Python dicts as association lists -/

/-- Dict lookup (`d[k]` / `k in d`): first binding of the key. -/
def dictGet {α β : Type} [DecidableEq α] : List (α × β) → α → Option β
  | [], _ => none
  | (k, v) :: rest, a => if k = a then some v else dictGet rest a

/-- Dict update (`d[k] = v`): overwrite in place, else append. -/
def dictSet {α β : Type} [DecidableEq α] (l : List (α × β)) (a : α) (v : β) :
    List (α × β) :=
  match l with
  | [] => [(a, v)]
  | (k, w) :: rest =>
    if k = a then (k, v) :: rest else (k, w) :: dictSet rest a v

/-- Dict deletion (`del d[k]`); `none` models the `KeyError` raised when
the key is absent. -/
def dictDel {α β : Type} [DecidableEq α] : List (α × β) → α → Option (List (α × β))
  | [], _ => none
  | (k, v) :: rest, a =>
    if k = a then some rest else (dictDel rest a).map ((k, v) :: ·)

/-! ## The generator state -/

/-- Value of a `(total, new)` cell: in the source these are Python lists
(`[total, new]`, and once a bare `[0]`), so we keep them as lists. -/
abbrev Entry := List Int

abbrev AreaMap := List (Str × Entry)

/-- `self.stat_data`: date → area → entry. -/
abbrev StatTable := List (PyDate × AreaMap)

/-- `self.stat_data.setdefault(date, {})[area] = e`. -/
def dictSet2 (t : StatTable) (d : PyDate) (a : Str) (e : Entry) : StatTable :=
  match dictGet t d with
  | some m => dictSet t d (dictSet m a e)
  | none => dictSet t d (dictSet [] a e)

/-- Two-level lookup `stat_data[d][a]`. -/
def dictGet2 (t : StatTable) (d : PyDate) (a : Str) : Option Entry :=
  (dictGet t d).bind (fun m => dictGet m a)

/-- The mutable state of a `DailyStatGenerator`. -/
structure Gen where
  min_date : Option PyDate
  stat_data : StatTable
  area_list : List Str
deriving DecidableEq, Repr

/-- A fresh `DailyStatGenerator()`. -/
def Gen.init : Gen := ⟨none, [], []⟩

/-! ## `_fix_prevdays` -/

/-- Number of table keys that are `≤ d`; a strict measure for the
backward walk of `_fix_prevdays`. -/
def countLE (t : StatTable) (d : PyDate) : Nat :=
  (t.map Prod.fst).countP (fun k => dateLeB k d)

/-- One fuel-indexed unfolding of the `while` loop of `_fix_prevdays`
(line 49–61 of the source).  Fuel `countLE t d + 1` always suffices.
`none` models an escaping exception: `IndexError` when an entry has
fewer than two elements, `OverflowError` when the walk steps back from
`date(1, 1, 1)`. -/
def fixAux : Nat → StatTable → PyDate → Str → Int → Option StatTable
  | 0, _, _, _, _ => none
  | fuel + 1, t, date, area, total =>
    match dictGet t date with
    | none => some t
    | some m =>
      match dictGet m area with
      | none => some t
      | some e =>
        match e[0]? with
        | none => none
        | some e0 =>
          if e0 > total then
            match e[1]? with
            | none => none
            | some e1 =>
              let new := e1 - (e0 - total)
              let new := if new < 0 then 0 else new
              let t' := dictSet t date (dictSet m area [total, new])
              match prevDate? date with
              | none => none
              | some p => fixAux fuel t' p area total
          else some t

/-- `self._fix_prevdays(start_date, area, total)`. -/
def fix_prevdays (t : StatTable) (start_date : PyDate) (area : Str)
    (total : Int) : Option StatTable :=
  fixAux (countLE t start_date + 1) t start_date area total

/-! ## `generate_from_file` -/

/-- Does the area name fall under `area.startswith('調査中')`? -/
def underInvestigation (a : Str) : Bool :=
  ['調', '査', '中'].isPrefixOf a

/-- Parse one snapshot line after `strip()`: `(area, total) = line.split(',')`
then `int(total)`; `none` models the `ValueError` that the source catches
and skips. -/
def snapLine? (line : Str) : Option (Str × Int) :=
  match splitComma (pyStrip line) with
  | [a, ts] => (pyInt? ts).map (fun v => (a, v))
  | _ => none

/-- State threaded through the ingestion loop: the table, the
`prevday_data` dict for the first-day case (a fresh dict, otherwise the
loop reads and writes `stat_data[prev_day]` itself, which is what the
alias `prevday_data = self.stat_data[prev_day]` does), and `area_list`. -/
abbrev IngestState := StatTable × AreaMap × List Str

/-- The body of the `for line in f` loop of `generate_from_file`
(lines 77–94 of the source).  `none` models an escaping exception. -/
def processLine (is1st : Bool) (date prev_day : PyDate) (s : IngestState)
    (line : Str) : Option IngestState :=
  let (stat, localPrev, areas) := s
  match snapLine? line with
  | none => some s
  | some (area, total) =>
    if underInvestigation area then some s
    else
      let areas := if is1st then areas ++ [area] else areas
      -- prevday_data.setdefault(area, [0])
      let look : Option (StatTable × AreaMap × Entry) :=
        if is1st then
          match dictGet localPrev area with
          | some e => some (stat, localPrev, e)
          | none => some (stat, dictSet localPrev area [0], [0])
        else
          match dictGet stat prev_day with
          | some m =>
            match dictGet m area with
            | some e => some (stat, localPrev, e)
            | none => some (dictSet stat prev_day (dictSet m area [0]), localPrev, [0])
          | none => none   -- unreachable: prev_day was checked and keys are never removed
      match look with
      | none => none
      | some (stat, localPrev, e) =>
        match e[0]? with
        | none => none   -- IndexError on a malformed entry
        | some e0 =>
          let new := total - e0
          if new < 0 then
            match fix_prevdays stat prev_day area total with
            | none => none
            | some stat => some (dictSet2 stat date area [total, 0], localPrev, areas)
          else some (dictSet2 stat date area [total, new], localPrev, areas)

/-- `self.generate_from_file(date, filename)` (lines 63–97).  The file's
contents stand in for the filename: `none` models `OSError` on `open`.
`none` as a result models an exception escaping the method (the source
catches only `OSError` and per-line `ValueError`). -/
def generate_from_file (g : Gen) (date : PyDate) (file : Option (List Str)) :
    Option Gen :=
  let md := if g.stat_data.isEmpty then some date else g.min_date
  match prevDate? date with
  | none => none   -- OverflowError computing prev_day
  | some prev_day =>
    let is1st : Bool := md = some date
    if ¬is1st ∧ dictGet g.stat_data prev_day = none then
      some { g with min_date := md }   -- 'cannot calculate values' error, return
    else
      match file with
      | none => some { g with min_date := md }   -- OSError, return
      | some lines =>
        match lines.foldlM (processLine is1st date prev_day)
            (g.stat_data, ([], g.area_list)) with
        | none => none
        | some (stat, _, areas) =>
          some { min_date := md, stat_data := stat, area_list := areas }

/-! ## `load_cache` -/

/-- Accumulator of the `for line in f` loop of `load_cache`: the table
being filled and `min_date_obj`. -/
abbrev CacheState := StatTable × Option PyDate

/-- `if min_date_obj is None or d < min_date_obj: min_date_obj = d`. -/
def minUpd (mdo : Option PyDate) (d : PyDate) : Option PyDate :=
  match mdo with
  | none => some d
  | some m => if dateLtB d m then some d else some m

/-- The body of the cache-reading loop (lines 30–42).  A `ValueError`
anywhere in the parse skips the line, but note that `min_date_obj` is
updated as soon as the date parses, before the integers are parsed. -/
def cacheLine (s : CacheState) (line : Str) : CacheState :=
  let l := pyStrip line
  match splitComma l with
  | [ds, a, ts, ns] =>
    match fromisoformat? ds with
    | none => s
    | some d =>
      let mdo := minUpd s.2 d
      match pyInt? ts with
      | none => (s.1, mdo)
      | some t =>
        match pyInt? ns with
        | none => (s.1, mdo)
        | some n => (dictSet2 s.1 d a [t, n], mdo)
  | _ => s

/-- `self.load_cache(cache_file)` (lines 26–47).  The outer `Option`
models an exception escaping the call: the source catches only `OSError`,
so `min_date_obj.isoformat()` raises `AttributeError` when no line of the
file carried a parseable date.  The `Bool` is the source's return value. -/
def load_cache (g : Gen) (file : Option (List Str)) : Option (Gen × Bool) :=
  match file with
  | none => some (g, false)   -- OSError: return False
  | some lines =>
    match lines.foldl cacheLine (g.stat_data, none) with
    | (_, none) => none
    | (stat, some d) => some ({ g with stat_data := stat, min_date := some d }, true)

/-! ## `generate_from_dir` -/

/-- One iteration of the directory loop (lines 104–120), after the
filename has been recognised and parsed into a date.  Filename discovery
and `strptime` parsing are the ingestion interface the specification
leaves out of scope; what reaches the core is a (date, snapshot) stream
in increasing date order. -/
def dirStep (g : Gen) (df : PyDate × Option (List Str)) : Option Gen :=
  if (dictGet g.stat_data df.1).isSome then some g   -- 'data already exists'
  else generate_from_file g df.1 df.2

/-- `self.generate_from_dir(csv_dir)` (lines 99–125): ingest every dated
file, then `del self.stat_data[self.min_date]`.  `none` models an
escaping exception (in particular the `KeyError` of the final `del` when
`min_date` is not a key of the table). -/
def generate_from_dir (g : Gen) (files : List (PyDate × Option (List Str))) :
    Option Gen :=
  match files.foldlM dirStep g with
  | none => none
  | some g' =>
    match g'.min_date with
    | none => some g'
    | some m =>
      match dictDel g'.stat_data m with
      | none => none
      | some st => some { g' with stat_data := st }

/-! ## `to_csvfile` -/

/-- Insertion sort by date; on duplicate-free key lists this is the
unique sorted order, which is what `sorted(self.stat_data.keys())`
produces on the corresponding ISO strings. -/
def insertDate (d : PyDate) : List PyDate → List PyDate
  | [] => [d]
  | x :: xs => if dateLeB d x then d :: x :: xs else x :: insertDate d xs

def sortDates : List PyDate → List PyDate
  | [] => []
  | x :: xs => insertDate x (sortDates xs)

/-- The header line written at line 137. -/
def headerLine : Str := "Date,Area,Total Cases,New Cases".toList

/-- `'%s,%s,%d,%d' % (date, area, *st[area])` for a well-formed entry;
`none` models the `TypeError` raised when `st[area]` does not have
exactly two elements. -/
def formatRow (d : PyDate) (a : Str) : Entry → Option Str
  | [t, n] =>
    some (isoformat d ++ ',' :: (a ++ ',' :: (intRepr t ++ ',' :: intRepr n)))
  | _ => none

/-- The rows the `for area in self.area_list` loop emits for one date;
`none` models the `KeyError` of `st[area]` or a `TypeError` of the
format. -/
def rowsForDate (m : AreaMap) (d : PyDate) (areas : List Str) :
    Option (List Str) :=
  match areas with
  | [] => some []
  | a :: rest =>
    match dictGet m a with
    | none => none   -- KeyError
    | some e =>
      match formatRow d a e with
      | none => none
      | some r => (rowsForDate m d rest).map (r :: ·)

/-- The data rows of `to_csvfile` (lines 138–141). -/
def csvRows (g : Gen) : List PyDate → Option (List Str)
  | [] => some []
  | d :: rest =>
    match dictGet g.stat_data d with
    | none => none   -- unreachable: d is drawn from the keys
    | some m =>
      match rowsForDate m d g.area_list with
      | none => none
      | some rs => (csvRows g rest).map (rs ++ ·)

/-- `self.to_csvfile(output_file)`: the lines written on a successful
run.  `none` models an exception escaping the method (`KeyError` /
`TypeError` in the row loop; the partial output written before such a
crash is not modelled, no claim concerns it). -/
def to_csvfile (g : Gen) : Option (List Str) :=
  match csvRows g (sortDates (g.stat_data.map Prod.fst)) with
  | none => none
  | some rows => some (headerLine :: rows)

/-! ## Predicates and statement helpers -/

/-- Iterated predecessor: the date `i` calendar days before `d`. -/
def backD (d : PyDate) : Nat → Option PyDate
  | 0 => some d
  | i + 1 => (prevDate? d).bind (fun p => backD p i)

/-- The keys of a table. -/
def tkeys (t : StatTable) : List PyDate := t.map Prod.fst

/-- A Python dict never holds a key twice. -/
def nodupKeys (t : StatTable) : Prop := (tkeys t).Nodup

/-- Every cell of the table is a two-element `[total, new]` list, as in
the specification's data model. -/
def PairTable (t : StatTable) : Prop :=
  ∀ p ∈ t, ∀ q ∈ p.2, (q.2 : Entry).length = 2

/-- The StatTable invariant of the specification: every recorded cell is
a pair of defined, non-negative numbers. -/
def InvTable (t : StatTable) : Prop :=
  ∀ p ∈ t, ∀ q ∈ p.2, (q.2 : Entry).length = 2 ∧ ∀ x ∈ (q.2 : Entry), 0 ≤ x

instance : DecidablePred PairTable := fun _ =>
  inferInstanceAs (Decidable (∀ _ ∈ _, ∀ _ ∈ _, _))

instance : DecidablePred InvTable := fun _ =>
  inferInstanceAs (Decidable (∀ _ ∈ _, ∀ _ ∈ _, _ ∧ _))

/-- The invariant of a generator state. -/
def InvGen (g : Gen) : Prop := InvTable g.stat_data

instance : DecidablePred InvGen := fun g =>
  inferInstanceAs (Decidable (InvTable g.stat_data))

instance : DecidablePred nodupKeys := fun t =>
  inferInstanceAs (Decidable ((tkeys t).Nodup))

/-- The row `to_csvfile` writes for a date and area, totalised for use in
theorem statements (`to_csvfile` itself crashes where the entry is
missing or malformed). -/
def rowLine (g : Gen) (d : PyDate) (a : Str) : Str :=
  match dictGet2 g.stat_data d a with
  | some [t, n] => isoformat d ++ ',' :: (a ++ ',' :: (intRepr t ++ ',' :: intRepr n))
  | _ => []

/-- The date of a cache line, read off exactly as `load_cache` does:
four comma-separated fields whose first is a valid ISO date.  Lines with
malformed integers still carry a date for `min_date_obj`. -/
def lineDate? (line : Str) : Option PyDate :=
  match splitComma (pyStrip line) with
  | [ds, _, _, _] => fromisoformat? ds
  | _ => none

/-- A fully well-formed cache line: four fields, valid date, two
integers. -/
def lineFull? (line : Str) : Option (PyDate × Str × Int × Int) :=
  match splitComma (pyStrip line) with
  | [ds, a, ts, ns] =>
    match fromisoformat? ds, pyInt? ts, pyInt? ns with
    | some d, some t, some n => some (d, a, t, n)
    | _, _, _ => none
  | _ => none

/-- Insert one parsed cache row. -/
def cacheIns (st : StatTable) (r : PyDate × Str × Int × Int) : StatTable :=
  dictSet2 st r.1 r.2.1 [r.2.2.1, r.2.2.2]

/-! # Theorems -/

/-! ## C3: the three-day worked example -/

/-- C3: starting from an empty accumulator and ingesting, for the single
area `A`, cumulative totals 10, 25 and 20 on three consecutive days,
then pruning MinDate and serializing, produces exactly the data rows
`day2,A,20,10` and `day3,A,20,0`: day 2 is corrected from
`(total 25, new 15)` to `(total 20, new 10)` and day 3 records new 0. -/
theorem three_day_example_run :
    (generate_from_dir Gen.init
        [(⟨2020, 7, 1⟩, some ["A,10".toList]),
         (⟨2020, 7, 2⟩, some ["A,25".toList]),
         (⟨2020, 7, 3⟩, some ["A,20".toList])]).bind to_csvfile =
      some [headerLine,
        "2020-07-02,A,20,10".toList,
        "2020-07-03,A,20,0".toList] := by decide

/-! ## Basic lemmas about dicts -/

theorem dictGet_set_self {α β : Type} [DecidableEq α] (l : List (α × β))
    (a : α) (v : β) : dictGet (dictSet l a v) a = some v := by
  induction l with
  | nil => simp [dictGet, dictSet]
  | cons p rest ih =>
    obtain ⟨k, w⟩ := p
    by_cases h : k = a <;> simp [dictGet, dictSet, h, ih]

theorem dictGet_set_ne {α β : Type} [DecidableEq α] (l : List (α × β))
    (a b : α) (v : β) (h : a ≠ b) :
    dictGet (dictSet l a v) b = dictGet l b := by
  induction l with
  | nil => simp [dictGet, dictSet, h]
  | cons p rest ih =>
    obtain ⟨k, w⟩ := p
    by_cases hk : k = a
    · subst hk; simp [dictGet, dictSet, h]
    · simp [dictGet, dictSet, hk, ih]

theorem dictGet_mem {α β : Type} [DecidableEq α] {l : List (α × β)}
    {a : α} {v : β} (h : dictGet l a = some v) : (a, v) ∈ l := by
  induction l with
  | nil => simp [dictGet] at h
  | cons p rest ih =>
    obtain ⟨k, w⟩ := p
    by_cases hk : k = a
    · subst hk
      simp [dictGet] at h
      simp [h]
    · simp [dictGet, hk] at h
      exact List.mem_cons_of_mem _ (ih h)

theorem dictGet_isSome_iff {α β : Type} [DecidableEq α] {l : List (α × β)}
    {a : α} : (dictGet l a).isSome ↔ a ∈ l.map Prod.fst := by
  induction l with
  | nil => simp [dictGet]
  | cons p rest ih =>
    obtain ⟨k, w⟩ := p
    by_cases hk : k = a
    · subst hk; simp [dictGet]
    · have hk' : a ≠ k := fun h => hk h.symm
      simp only [dictGet, if_neg hk, List.map_cons, List.mem_cons]
      rw [ih]
      exact ⟨fun h => Or.inr h, fun h => h.resolve_left hk'⟩

theorem dictGet_eq_none_iff {α β : Type} [DecidableEq α] {l : List (α × β)}
    {a : α} : dictGet l a = none ↔ a ∉ l.map Prod.fst := by
  rw [← dictGet_isSome_iff, Option.isSome_iff_ne_none]
  tauto

theorem dictSet_map_fst_mem {α β : Type} [DecidableEq α] {l : List (α × β)}
    {a : α} (v : β) (h : a ∈ l.map Prod.fst) :
    (dictSet l a v).map Prod.fst = l.map Prod.fst := by
  induction l with
  | nil => simp at h
  | cons p rest ih =>
    obtain ⟨k, w⟩ := p
    by_cases hk : k = a
    · simp [dictSet, hk]
    · simp only [List.map_cons, List.mem_cons] at h
      rcases h with h | h
      · exact absurd h.symm hk
      · simp [dictSet, hk, ih h]

theorem dictSet_map_fst_not_mem {α β : Type} [DecidableEq α]
    {l : List (α × β)} {a : α} (v : β) (h : a ∉ l.map Prod.fst) :
    (dictSet l a v).map Prod.fst = l.map Prod.fst ++ [a] := by
  induction l with
  | nil => simp [dictSet]
  | cons p rest ih =>
    obtain ⟨k, w⟩ := p
    simp only [List.map_cons, List.mem_cons, not_or] at h
    by_cases hk : k = a
    · exact absurd hk.symm h.1
    · simp [dictSet, hk, ih h.2]

theorem dictSet_nodup {α β : Type} [DecidableEq α] {l : List (α × β)}
    {a : α} (v : β) (h : (l.map Prod.fst).Nodup) :
    ((dictSet l a v).map Prod.fst).Nodup := by
  by_cases hm : a ∈ l.map Prod.fst
  · rw [dictSet_map_fst_mem v hm]; exact h
  · rw [dictSet_map_fst_not_mem v hm, List.nodup_append]
    refine ⟨h, List.nodup_singleton a, fun x hx hxa => ?_⟩
    rw [List.mem_singleton] at hxa
    subst hxa
    exact hm hx

theorem dictDel_isSome_iff {α β : Type} [DecidableEq α] {l : List (α × β)}
    {a : α} : (dictDel l a).isSome ↔ a ∈ l.map Prod.fst := by
  induction l with
  | nil => simp [dictDel]
  | cons p rest ih =>
    obtain ⟨k, w⟩ := p
    by_cases hk : k = a
    · subst hk; simp [dictDel]
    · have hk' : a ≠ k := fun h => hk h.symm
      simp only [dictDel, if_neg hk, List.map_cons, List.mem_cons]
      rw [← ih]
      cases hd : dictDel rest a <;>
        simp_all [Option.isSome]

theorem dictDel_map_fst {α β : Type} [DecidableEq α] {l l' : List (α × β)}
    {a : α} (h : dictDel l a = some l') :
    l.map Prod.fst = l'.map Prod.fst ++ [a] ∨
      ∃ u v, l.map Prod.fst = u ++ a :: v ∧ l'.map Prod.fst = u ++ v := by
  induction l generalizing l' with
  | nil => simp [dictDel] at h
  | cons p rest ih =>
    obtain ⟨k, w⟩ := p
    by_cases hk : k = a
    · subst hk
      simp [dictDel] at h
      subst h
      right; exact ⟨[], rest.map Prod.fst, by simp, by simp⟩
    · simp [dictDel, hk] at h
      obtain ⟨r', hr', rfl⟩ := h
      rcases ih hr' with h | ⟨u, v, hu, hv⟩
      · right; exact ⟨k :: r'.map Prod.fst, [], by simp [h], by simp⟩
      · right; exact ⟨k :: u, v, by simp [hu], by simp [hv]⟩

theorem dictDel_not_mem {α β : Type} [DecidableEq α] {l l' : List (α × β)}
    {a : α} (hnd : (l.map Prod.fst).Nodup) (h : dictDel l a = some l') :
    a ∉ l'.map Prod.fst := by
  rcases dictDel_map_fst h with hh | ⟨u, v, hu, hv⟩
  · intro hx
    rw [hh] at hnd
    rcases (List.nodup_append.mp hnd) with ⟨_, _, hdisj⟩
    exact hdisj.symm (by simp) hx
  · rw [hu] at hnd
    intro hx
    rw [hv] at hx
    rcases List.mem_append.mp hx with hx | hx
    · rcases List.nodup_append.mp hnd with ⟨_, _, hdisj⟩
      exact hdisj hx (by simp)
    · rcases List.nodup_append.mp hnd with ⟨_, hnd2, _⟩
      exact (List.nodup_cons.mp hnd2).1 hx

/-! ## Lemmas about `dictSet2` and table keys -/

theorem dictGet2_set2_self (t : StatTable) (d : PyDate) (a : Str) (e : Entry) :
    dictGet2 (dictSet2 t d a e) d a = some e := by
  unfold dictSet2 dictGet2
  cases h : dictGet t d <;>
    simp [dictGet_set_self, dictGet_set_self]

theorem dictGet_set2_ne (t : StatTable) (d : PyDate) (a : Str) (e : Entry)
    (d' : PyDate) (h : d ≠ d') :
    dictGet (dictSet2 t d a e) d' = dictGet t d' := by
  unfold dictSet2
  cases hg : dictGet t d <;> exact dictGet_set_ne _ _ _ _ h

theorem dictGet2_set2_ne (t : StatTable) (d : PyDate) (a : Str) (e : Entry)
    (d' : PyDate) (a' : Str) (h : d ≠ d' ∨ a ≠ a') :
    dictGet2 (dictSet2 t d a e) d' a' = dictGet2 t d' a' := by
  by_cases hd : d = d'
  · subst hd
    rcases h with h | h
    · exact absurd rfl h
    · unfold dictSet2 dictGet2
      cases hg : dictGet t d <;>
        simp [dictGet_set_self, hg, dictGet_set_ne _ _ _ _ h, dictGet, h]
  · unfold dictGet2
    rw [dictGet_set2_ne t d a e d' hd]

theorem tkeys_dictSet2_mem {t : StatTable} {d : PyDate} (a : Str) (e : Entry)
    (h : d ∈ tkeys t) : tkeys (dictSet2 t d a e) = tkeys t := by
  unfold dictSet2 tkeys
  cases hg : dictGet t d <;> exact dictSet_map_fst_mem _ h

theorem tkeys_dictSet2_not_mem {t : StatTable} {d : PyDate} (a : Str) (e : Entry)
    (h : d ∉ tkeys t) : tkeys (dictSet2 t d a e) = tkeys t ++ [d] := by
  unfold dictSet2 tkeys
  cases hg : dictGet t d <;> exact dictSet_map_fst_not_mem _ h

theorem nodup_dictSet2 {t : StatTable} (d : PyDate) (a : Str) (e : Entry)
    (h : nodupKeys t) : nodupKeys (dictSet2 t d a e) := by
  unfold nodupKeys tkeys at *
  unfold dictSet2
  cases hg : dictGet t d <;> exact dictSet_nodup _ h

/-! ## Lemmas about the date order -/

theorem dateLtB_iff {a b : PyDate} :
    dateLtB a b = true ↔
      a.year < b.year ∨ (a.year = b.year ∧
        (a.month < b.month ∨ (a.month = b.month ∧ a.day < b.day))) := by
  simp [dateLtB]

theorem pydate_ext {a b : PyDate} (hy : a.year = b.year)
    (hm : a.month = b.month) (hd : a.day = b.day) : a = b := by
  cases a; cases b; simp_all

theorem dateLtB_irrefl (a : PyDate) : dateLtB a a = false := by
  simp [dateLtB]

theorem dateLtB_trans {a b c : PyDate} (h1 : dateLtB a b = true)
    (h2 : dateLtB b c = true) : dateLtB a c = true := by
  rw [dateLtB_iff] at *
  omega

theorem dateLtB_asymm {a b : PyDate} (h : dateLtB a b = true) :
    dateLtB b a = false := by
  rw [dateLtB_iff] at h
  rw [← Bool.not_eq_true, dateLtB_iff]
  omega

theorem dateLtB_total {a b : PyDate} (h1 : dateLtB a b = false)
    (h2 : dateLtB b a = false) : a = b := by
  rw [← Bool.not_eq_true, dateLtB_iff] at h1 h2
  exact pydate_ext (by omega) (by omega) (by omega)

theorem dateLeB_refl (a : PyDate) : dateLeB a a = true := by
  simp [dateLeB]

theorem dateLeB_of_lt {a b : PyDate} (h : dateLtB a b = true) :
    dateLeB a b = true := by simp [dateLeB, h]

theorem dateLeB_trans {a b c : PyDate} (h1 : dateLeB a b = true)
    (h2 : dateLeB b c = true) : dateLeB a c = true := by
  simp only [dateLeB, Bool.or_eq_true, decide_eq_true_eq] at *
  rcases h1 with h1 | rfl
  · rcases h2 with h2 | rfl
    · exact Or.inl (dateLtB_trans h1 h2)
    · exact Or.inl h1
  · exact h2

theorem dateLeB_antisymm {a b : PyDate} (h1 : dateLeB a b = true)
    (h2 : dateLeB b a = true) : a = b := by
  simp only [dateLeB, Bool.or_eq_true, decide_eq_true_eq] at *
  rcases h1 with h1 | rfl
  · rcases h2 with h2 | rfl
    · exact absurd h2 (by simp [dateLtB_asymm h1])
    · rfl
  · rfl

theorem dateLeB_total (a b : PyDate) :
    dateLeB a b = true ∨ dateLeB b a = true := by
  by_cases h1 : dateLtB a b = true
  · exact Or.inl (dateLeB_of_lt h1)
  · by_cases h2 : dateLtB b a = true
    · exact Or.inr (dateLeB_of_lt h2)
    · left
      have := dateLtB_total (Bool.not_eq_true _ ▸ h1) (Bool.not_eq_true _ ▸ h2)
      simp [this, dateLeB_refl]

theorem not_dateLeB_of_lt {a b : PyDate} (h : dateLtB a b = true) :
    dateLeB b a = false := by
  simp only [dateLeB, Bool.or_eq_true, decide_eq_true_eq]
  rw [Bool.or_eq_false_iff]
  constructor
  · exact dateLtB_asymm h
  · rw [decide_eq_false_iff_not]
    rintro rfl
    simp [dateLtB_irrefl] at h

theorem dateLtB_of_le_ne {a b : PyDate} (h : dateLeB a b = true)
    (hne : a ≠ b) : dateLtB a b = true := by
  simp only [dateLeB, Bool.or_eq_true, decide_eq_true_eq] at h
  exact h.resolve_right hne

theorem prevDate?_lt {d p : PyDate} (h : prevDate? d = some p) :
    dateLtB p d = true := by
  unfold prevDate? at h
  split at h
  · cases h
    rw [dateLtB_iff]
    cases d
    simp_all
    omega
  · split at h
    · cases h
      rw [dateLtB_iff]
      cases d
      simp_all
      omega
    · split at h
      · cases h
        rw [dateLtB_iff]
        cases d
        simp_all
        omega
      · cases h

theorem backD_le {d di : PyDate} {i : Nat} (h : backD d i = some di) :
    dateLeB di d = true := by
  induction i generalizing d with
  | zero =>
    unfold backD at h
    cases h
    exact dateLeB_refl _
  | succ n ih =>
    unfold backD at h
    cases hp : prevDate? d with
    | none => rw [hp] at h; cases h
    | some p =>
      rw [hp] at h
      simp only [Option.some_bind] at h
      exact dateLeB_trans (ih h) (dateLeB_of_lt (prevDate?_lt hp))

/-! ## The termination measure of the backward walk -/

theorem countP_lt_of_mem {l : List PyDate} {d p : PyDate}
    (hd : d ∈ l) (hlt : dateLtB p d = true) :
    l.countP (fun k => dateLeB k p) < l.countP (fun k => dateLeB k d) := by
  induction l with
  | nil => simp at hd
  | cons x xs ih =>
    have hmono : ∀ k : PyDate, dateLeB k p = true → dateLeB k d = true :=
      fun k hk => dateLeB_trans hk (dateLeB_of_lt hlt)
    have hmle : xs.countP (fun k => dateLeB k p) ≤
        xs.countP (fun k => dateLeB k d) :=
      List.countP_mono_left (fun k _ hk => hmono k hk)
    rw [List.countP_cons, List.countP_cons]
    rcases List.mem_cons.mp hd with rfl | hd'
    · have h1 : dateLeB d p = false := not_dateLeB_of_lt hlt
      have h2 : dateLeB d d = true := dateLeB_refl d
      simp only [h1, h2, Bool.false_eq_true, if_false, if_true]
      omega
    · have hih := ih hd'
      cases hx : dateLeB x p with
      | true =>
        have hxd := hmono x hx
        simp only [hx, hxd, if_true]
        omega
      | false =>
        simp only [hx, Bool.false_eq_true, if_false]
        cases hxd : dateLeB x d <;>
          simp only [hxd, Bool.false_eq_true, if_false, if_true] <;> omega

theorem countLE_set_lt {t : StatTable} {d p : PyDate} {m : AreaMap}
    (hm : dictGet t d = some m) (hp : prevDate? d = some p) (v : AreaMap) :
    countLE (dictSet t d v) p < countLE t d := by
  have hmem : d ∈ t.map Prod.fst :=
    dictGet_isSome_iff.mp (by simp [hm])
  unfold countLE
  rw [dictSet_map_fst_mem v hmem]
  exact countP_lt_of_mem hmem (prevDate?_lt hp)

/-! ## C7: missing predecessor day -/

/-- C7 (amended): for every state whose table is non-empty, ingesting a
date other than MinDate whose previous calendar day is absent from the
table fails with a reported error and changes nothing: table, AreaList
and MinDate are exactly as before. -/
theorem missing_predecessor_skip (g : Gen) (date pd : PyDate)
    (file : Option (List Str)) (hne : g.stat_data ≠ [])
    (hprev : prevDate? date = some pd)
    (hmd : g.min_date ≠ some date)
    (habs : dictGet g.stat_data pd = none) :
    generate_from_file g date file = some g := by
  have hie : g.stat_data.isEmpty = false := by
    cases h : g.stat_data with
    | nil => exact absurd h hne
    | cons a l => rfl
  simp [generate_from_file, hie, hprev, hmd, habs]

theorem missing_predecessor_skip_witness :
    generate_from_file
        ⟨some ⟨2020, 1, 2⟩, [(⟨2020, 1, 2⟩, [("A".toList, [1, 1])])], []⟩
        ⟨2020, 1, 10⟩ (some ["A,5".toList]) =
      some ⟨some ⟨2020, 1, 2⟩, [(⟨2020, 1, 2⟩, [("A".toList, [1, 1])])], []⟩ :=
  missing_predecessor_skip _ _ ⟨2020, 1, 9⟩ _ (by decide) (by decide)
    (by decide) (by decide)

/-- C7 counterexample: on an *empty* table whose MinDate is set (the
state left behind by a snapshot that failed to open), ingesting a date
that is not MinDate and whose predecessor is absent does not fail: the
source first reassigns `min_date` to the new date (line 64–65), making
it the first day, and ingests it fully — table, AreaList and MinDate all
change. -/
theorem missing_predecessor_empty_table_ingests :
    generate_from_file ⟨some ⟨2020, 1, 5⟩, [], []⟩ ⟨2020, 1, 10⟩
        (some ["A,5".toList]) =
      some ⟨some ⟨2020, 1, 10⟩, [(⟨2020, 1, 10⟩, [("A".toList, [5, 5])])],
        ["A".toList]⟩ ∧
    (⟨some ⟨2020, 1, 10⟩, [(⟨2020, 1, 10⟩, [("A".toList, [5, 5])])],
        ["A".toList]⟩ : Gen) ≠ ⟨some ⟨2020, 1, 5⟩, [], []⟩ := by
  constructor <;> decide

/-! ## Membership after updates, and the invariant -/

theorem mem_dictSet {α β : Type} [DecidableEq α] {l : List (α × β)}
    {k : α} {v : β} : ∀ p ∈ dictSet l k v, p ∈ l ∨ p = (k, v) := by
  induction l with
  | nil =>
    intro p hp
    simp [dictSet] at hp
    exact Or.inr hp
  | cons q rest ih =>
    obtain ⟨k', w⟩ := q
    intro p hp
    by_cases hk : k' = k
    · subst hk
      simp [dictSet] at hp
      rcases hp with rfl | hp
      · exact Or.inr rfl
      · exact Or.inl (List.mem_cons_of_mem _ hp)
    · simp [dictSet, hk] at hp
      rcases hp with rfl | hp
      · exact Or.inl (by simp)
      · rcases ih p hp with h | h
        · exact Or.inl (List.mem_cons_of_mem _ h)
        · exact Or.inr h

theorem mem_dictSet2 {t : StatTable} {d : PyDate} {a : Str} {e : Entry} :
    ∀ p ∈ dictSet2 t d a e, p ∈ t ∨
      ∀ q ∈ p.2, (∃ m, dictGet t d = some m ∧ q ∈ m) ∨ q = (a, e) := by
  intro p hp
  unfold dictSet2 at hp
  cases hm : dictGet t d with
  | none =>
    rw [hm] at hp
    rcases mem_dictSet p hp with h | h
    · exact Or.inl h
    · subst h
      refine Or.inr (fun q hq => ?_)
      rcases mem_dictSet q hq with h | h
      · simp [dictGet] at h
      · exact Or.inr h
  | some m =>
    rw [hm] at hp
    rcases mem_dictSet p hp with h | h
    · exact Or.inl h
    · subst h
      refine Or.inr (fun q hq => ?_)
      rcases mem_dictSet q hq with h | h
      · exact Or.inl ⟨m, rfl, h⟩
      · exact Or.inr h

theorem InvTable_dictSet2 {t : StatTable} {d : PyDate} {a : Str} {x y : Int}
    (hinv : InvTable t) (hx : 0 ≤ x) (hy : 0 ≤ y) :
    InvTable (dictSet2 t d a [x, y]) := by
  intro p hp q hq
  rcases mem_dictSet2 p hp with h | h
  · exact hinv p h q hq
  · rcases h q hq with ⟨m, hm, hqm⟩ | h
    · exact hinv (d, m) (dictGet_mem hm) q hqm
    · subst h
      refine ⟨rfl, ?_⟩
      intro z hz
      simp at hz
      rcases hz with rfl | rfl <;> assumption

theorem InvTable_entry {t : StatTable} {d : PyDate} {a : Str} {e : Entry}
    (hinv : InvTable t) (h : dictGet2 t d a = some e) :
    ∃ x y, e = [x, y] ∧ 0 ≤ x ∧ 0 ≤ y := by
  unfold dictGet2 at h
  cases hm : dictGet t d with
  | none => rw [hm] at h; cases h
  | some m =>
    rw [hm] at h
    simp only [Option.some_bind] at h
    have := hinv (d, m) (dictGet_mem hm) (a, e) (dictGet_mem h)
    obtain ⟨hlen, hpos⟩ := this
    match e, hlen with
    | [x, y], _ =>
      exact ⟨x, y, rfl, hpos x (by simp), hpos y (by simp)⟩

/-! ## Lemmas about `fixAux` -/

theorem fixAux_keys {fuel : Nat} {t t' : StatTable} {d : PyDate} {a : Str}
    {tot : Int} (h : fixAux fuel t d a tot = some t') : tkeys t' = tkeys t := by
  induction fuel generalizing t d with
  | zero => simp [fixAux] at h
  | succ n ih =>
    unfold fixAux at h
    cases hm : dictGet t d with
    | none => simp only [hm] at h; cases h; rfl
    | some m =>
      simp only [hm] at h
      cases ha : dictGet m a with
      | none => simp only [ha] at h; cases h; rfl
      | some e =>
        simp only [ha] at h
        cases he0 : e[0]? with
        | none => simp only [he0] at h; cases h
        | some e0 =>
          simp only [he0] at h
          by_cases hgt : e0 > tot
          · rw [if_pos hgt] at h
            cases he1 : e[1]? with
            | none => simp only [he1] at h; cases h
            | some e1 =>
              simp only [he1] at h
              cases hp : prevDate? d with
              | none => simp only [hp] at h; cases h
              | some p =>
                simp only [hp] at h
                have hkeys := ih h
                rw [hkeys]
                unfold tkeys
                exact dictSet_map_fst_mem _
                  (dictGet_isSome_iff.mp (by simp [hm]))
          · rw [if_neg hgt] at h; cases h; rfl

theorem fixAux_inv {fuel : Nat} {t t' : StatTable} {d : PyDate} {a : Str}
    {tot : Int} (hinv : InvTable t) (htot : 0 ≤ tot)
    (h : fixAux fuel t d a tot = some t') : InvTable t' := by
  induction fuel generalizing t d with
  | zero => simp [fixAux] at h
  | succ n ih =>
    unfold fixAux at h
    cases hm : dictGet t d with
    | none => simp only [hm] at h; cases h; exact hinv
    | some m =>
      simp only [hm] at h
      cases ha : dictGet m a with
      | none => simp only [ha] at h; cases h; exact hinv
      | some e =>
        simp only [ha] at h
        cases he0 : e[0]? with
        | none => simp only [he0] at h; cases h
        | some e0 =>
          simp only [he0] at h
          by_cases hgt : e0 > tot
          · rw [if_pos hgt] at h
            cases he1 : e[1]? with
            | none => simp only [he1] at h; cases h
            | some e1 =>
              simp only [he1] at h
              cases hp : prevDate? d with
              | none => simp only [hp] at h; cases h
              | some p =>
                simp only [hp] at h
                refine ih ?_ h
                have hset : dictSet t d (dictSet m a
                    [tot, if e1 - (e0 - tot) < 0 then 0 else e1 - (e0 - tot)]) =
                    dictSet2 t d a
                    [tot, if e1 - (e0 - tot) < 0 then 0 else e1 - (e0 - tot)] := by
                  unfold dictSet2
                  rw [hm]
                rw [hset]
                refine InvTable_dictSet2 hinv htot ?_
                split <;> omega
          · rw [if_neg hgt] at h; cases h; exact hinv

theorem fixAux_cell_mono {fuel : Nat} {t t' : StatTable} {d : PyDate}
    {a : Str} {tot : Int} (h : fixAux fuel t d a tot = some t')
    {d0 : PyDate} {a0 : Str} (hc : (dictGet2 t d0 a0).isSome) :
    (dictGet2 t' d0 a0).isSome := by
  induction fuel generalizing t d with
  | zero => simp [fixAux] at h
  | succ n ih =>
    unfold fixAux at h
    cases hm : dictGet t d with
    | none => simp only [hm] at h; cases h; exact hc
    | some m =>
      simp only [hm] at h
      cases ha : dictGet m a with
      | none => simp only [ha] at h; cases h; exact hc
      | some e =>
        simp only [ha] at h
        cases he0 : e[0]? with
        | none => simp only [he0] at h; cases h
        | some e0 =>
          simp only [he0] at h
          by_cases hgt : e0 > tot
          · rw [if_pos hgt] at h
            cases he1 : e[1]? with
            | none => simp only [he1] at h; cases h
            | some e1 =>
              simp only [he1] at h
              cases hp : prevDate? d with
              | none => simp only [hp] at h; cases h
              | some p =>
                simp only [hp] at h
                refine ih h ?_
                have hset : dictSet t d (dictSet m a
                    [tot, if e1 - (e0 - tot) < 0 then 0 else e1 - (e0 - tot)]) =
                    dictSet2 t d a
                    [tot, if e1 - (e0 - tot) < 0 then 0 else e1 - (e0 - tot)] := by
                  unfold dictSet2
                  rw [hm]
                rw [hset]
                by_cases hda : d = d0 ∧ a = a0
                · rw [hda.1, hda.2, dictGet2_set2_self]
                  rfl
                · rw [dictGet2_set2_ne]
                  · exact hc
                  · tauto
          · rw [if_neg hgt] at h; cases h; exact hc

/-! ## Characterising one cache line -/

theorem cacheLine_noDate {line : Str} (h : lineDate? line = none)
    (s : CacheState) : cacheLine s line = s := by
  unfold cacheLine
  unfold lineDate? at h
  rcases hsp : splitComma (pyStrip line) with
    _ | ⟨f1, _ | ⟨f2, _ | ⟨f3, _ | ⟨f4, _ | ⟨f5, rest⟩⟩⟩⟩⟩
  · simp only [hsp]
  · simp only [hsp]
  · simp only [hsp]
  · simp only [hsp]
  · simp only [hsp] at h ⊢
    simp only [h]
  · simp only [hsp]

theorem cacheLine_dateOnly {line : Str} {d : PyDate}
    (hd : lineDate? line = some d) (hf : lineFull? line = none)
    (st : StatTable) (mdo : Option PyDate) :
    cacheLine (st, mdo) line = (st, minUpd mdo d) := by
  unfold cacheLine
  unfold lineDate? at hd
  unfold lineFull? at hf
  rcases hsp : splitComma (pyStrip line) with
    _ | ⟨f1, _ | ⟨f2, _ | ⟨f3, _ | ⟨f4, _ | ⟨f5, rest⟩⟩⟩⟩⟩
  · simp only [hsp] at hd; cases hd
  · simp only [hsp] at hd; cases hd
  · simp only [hsp] at hd; cases hd
  · simp only [hsp] at hd; cases hd
  · simp only [hsp] at hd hf ⊢
    simp only [hd] at hf ⊢
    cases h3 : pyInt? f3 with
    | none => simp only [h3]
    | some t =>
      simp only [h3] at hf ⊢
      cases h4 : pyInt? f4 with
      | none => simp only [h4]
      | some n => simp only [h4] at hf; cases hf
  · simp only [hsp] at hd; cases hd

theorem cacheLine_full {line : Str} {r : PyDate × Str × Int × Int}
    (hf : lineFull? line = some r) (st : StatTable) (mdo : Option PyDate) :
    cacheLine (st, mdo) line = (cacheIns st r, minUpd mdo r.1) := by
  unfold cacheLine
  unfold lineFull? at hf
  rcases hsp : splitComma (pyStrip line) with
    _ | ⟨f1, _ | ⟨f2, _ | ⟨f3, _ | ⟨f4, _ | ⟨f5, rest⟩⟩⟩⟩⟩
  · simp only [hsp] at hf; cases hf
  · simp only [hsp] at hf; cases hf
  · simp only [hsp] at hf; cases hf
  · simp only [hsp] at hf; cases hf
  · simp only [hsp] at hf ⊢
    cases h1 : fromisoformat? f1 with
    | none => simp only [h1] at hf; cases hf
    | some d =>
      simp only [h1] at hf ⊢
      cases h3 : pyInt? f3 with
      | none => simp only [h3] at hf; cases hf
      | some t =>
        simp only [h3] at hf ⊢
        cases h4 : pyInt? f4 with
        | none => simp only [h4] at hf; cases hf
        | some n =>
          simp only [h4] at hf ⊢
          cases hf
          rfl
  · simp only [hsp] at hf; cases hf

theorem lineFull?_date {line : Str} {r : PyDate × Str × Int × Int}
    (hf : lineFull? line = some r) : lineDate? line = some r.1 := by
  unfold lineFull? at hf
  unfold lineDate?
  rcases hsp : splitComma (pyStrip line) with
    _ | ⟨f1, _ | ⟨f2, _ | ⟨f3, _ | ⟨f4, _ | ⟨f5, rest⟩⟩⟩⟩⟩
  · simp only [hsp] at hf; cases hf
  · simp only [hsp] at hf; cases hf
  · simp only [hsp] at hf; cases hf
  · simp only [hsp] at hf; cases hf
  · simp only [hsp] at hf ⊢
    cases h1 : fromisoformat? f1 with
    | none => simp only [h1] at hf; cases hf
    | some d =>
      simp only [h1] at hf ⊢
      cases h3 : pyInt? f3 with
      | none => simp only [h3] at hf; cases hf
      | some t =>
        simp only [h3] at hf
        cases h4 : pyInt? f4 with
        | none => simp only [h4] at hf; cases hf
        | some n =>
          simp only [h4] at hf
          cases hf
          rfl
  · simp only [hsp] at hf; cases hf

/-! ## The cache-loading fold -/

theorem load_fold_inv (lines : List Str) :
    ∀ (st : StatTable) (mdo : Option PyDate), InvTable st →
      (∀ l ∈ lines, ∀ r, lineFull? l = some r →
        0 ≤ r.2.2.1 ∧ 0 ≤ r.2.2.2) →
      InvTable (lines.foldl cacheLine (st, mdo)).1 := by
  induction lines with
  | nil => intro st mdo h _; simpa using h
  | cons l ls ih =>
    intro st mdo h hr
    rw [List.foldl_cons]
    cases hf : lineFull? l with
    | some r =>
      rw [cacheLine_full hf]
      refine ih _ _ ?_ (fun x hx => hr x (List.mem_cons_of_mem _ hx))
      obtain ⟨h1, h2⟩ := hr l (by simp) r hf
      exact InvTable_dictSet2 h h1 h2
    | none =>
      cases hd : lineDate? l with
      | none =>
        rw [cacheLine_noDate hd]
        exact ih _ _ h (fun x hx => hr x (List.mem_cons_of_mem _ hx))
      | some d =>
        rw [cacheLine_dateOnly hd hf]
        exact ih _ _ h (fun x hx => hr x (List.mem_cons_of_mem _ hx))

/-! ## `processLine`: invariant and monotonicity -/

theorem isSome_dictGet2_set2 {t : StatTable} {d0 : PyDate} {a0 : Str}
    (d : PyDate) (a : Str) (e : Entry)
    (h : (dictGet2 t d0 a0).isSome) :
    (dictGet2 (dictSet2 t d a e) d0 a0).isSome := by
  by_cases hda : d = d0 ∧ a = a0
  · rw [hda.1, hda.2, dictGet2_set2_self]; rfl
  · rw [dictGet2_set2_ne _ _ _ _ _ _ (by tauto)]
    exact h

theorem processLine_inv {is1st : Bool} {date pd : PyDate} {stat : StatTable}
    {loc : AreaMap} {ar : List Str} {line : Str} {out : IngestState}
    (hinv : InvTable stat)
    (hval : ∀ a v, snapLine? line = some (a, v) → 0 ≤ v)
    (hpres : is1st = false → ∀ a v, snapLine? line = some (a, v) →
      underInvestigation a = false → (dictGet2 stat pd a).isSome)
    (h : processLine is1st date pd (stat, loc, ar) line = some out) :
    InvTable out.1 := by
  unfold processLine at h
  cases hsl : snapLine? line with
  | none =>
    simp only [hsl] at h
    cases h
    exact hinv
  | some av =>
    obtain ⟨area, total⟩ := av
    simp only [hsl] at h
    have htot : 0 ≤ total := hval area total hsl
    cases hui : underInvestigation area with
    | true =>
      simp only [hui, if_true] at h
      cases h
      exact hinv
    | false =>
      simp only [hui, Bool.false_eq_true, if_false] at h
      cases is1st with
      | true =>
        simp only [if_true] at h
        have hbranch : ∀ (st0 : StatTable) (lp : AreaMap) (e : Entry),
            InvTable st0 →
            (match e[0]? with
              | none => none
              | some e0 =>
                let new := total - e0
                if new < 0 then
                  match fix_prevdays st0 pd area total with
                  | none => none
                  | some stat => some (dictSet2 stat date area [total, 0], lp,
                      ar ++ [area])
                else some (dictSet2 st0 date area [total, new], lp,
                    ar ++ [area])) = some out → InvTable out.1 := by
          intro st0 lp e hinv0 hh
          cases he0 : e[0]? with
          | none => simp only [he0] at hh; cases hh
          | some e0 =>
            simp only [he0] at hh
            by_cases hneg : total - e0 < 0
            · rw [if_pos hneg] at hh
              cases hfix : fix_prevdays st0 pd area total with
              | none => simp only [hfix] at hh; cases hh
              | some st1 =>
                simp only [hfix] at hh
                cases hh
                exact InvTable_dictSet2 (fixAux_inv hinv0 htot hfix) htot le_rfl
            · rw [if_neg hneg] at hh
              cases hh
              exact InvTable_dictSet2 hinv0 htot (by omega)
        cases hl : dictGet loc area with
        | some e =>
          simp only [hl] at h
          exact hbranch stat loc e hinv h
        | none =>
          simp only [hl] at h
          exact hbranch stat (dictSet loc area [0]) [0] hinv h
      | false =>
        simp only [Bool.false_eq_true, if_false] at h
        cases hm : dictGet stat pd with
        | none => simp only [hm] at h; cases h
        | some m =>
          simp only [hm] at h
          cases ha : dictGet m area with
          | none =>
            exfalso
            have := hpres rfl area total hsl hui
            rw [Option.isSome_iff_exists] at this
            obtain ⟨e, he⟩ := this
            unfold dictGet2 at he
            rw [hm] at he
            simp only [Option.some_bind] at he
            rw [ha] at he
            cases he
          | some e =>
            simp only [ha] at h
            have hee : dictGet2 stat pd area = some e := by
              unfold dictGet2
              rw [hm]
              simpa using ha
            obtain ⟨x, y, rfl, hx, hy⟩ := InvTable_entry hinv hee
            simp only [show ([x, y] : Entry)[0]? = some x from rfl] at h
            by_cases hneg : total - x < 0
            · rw [if_pos hneg] at h
              cases hfix : fix_prevdays stat pd area total with
              | none => simp only [hfix] at h; cases h
              | some st1 =>
                simp only [hfix] at h
                cases h
                exact InvTable_dictSet2 (fixAux_inv hinv htot hfix) htot le_rfl
            · rw [if_neg hneg] at h
              cases h
              exact InvTable_dictSet2 hinv htot (by omega)

theorem processLine_cell_mono {is1st : Bool} {date pd : PyDate}
    {stat : StatTable} {loc : AreaMap} {ar : List Str} {line : Str}
    {out : IngestState} {d0 : PyDate} {a0 : Str}
    (h : processLine is1st date pd (stat, loc, ar) line = some out)
    (hc : (dictGet2 stat d0 a0).isSome) :
    (dictGet2 out.1 d0 a0).isSome := by
  unfold processLine at h
  cases hsl : snapLine? line with
  | none =>
    simp only [hsl] at h
    cases h
    exact hc
  | some av =>
    obtain ⟨area, total⟩ := av
    simp only [hsl] at h
    cases hui : underInvestigation area with
    | true =>
      simp only [hui, if_true] at h
      cases h
      exact hc
    | false =>
      simp only [hui, Bool.false_eq_true, if_false] at h
      have hbranch : ∀ (st0 : StatTable) (lp : AreaMap) (e : Entry)
          (ars : List Str), (dictGet2 st0 d0 a0).isSome →
          (match e[0]? with
            | none => none
            | some e0 =>
              let new := total - e0
              if new < 0 then
                match fix_prevdays st0 pd area total with
                | none => none
                | some stat => some (dictSet2 stat date area [total, 0], lp, ars)
              else some (dictSet2 st0 date area [total, new], lp, ars)) =
            some out →
          (dictGet2 out.1 d0 a0).isSome := by
        intro st0 lp e ars hc0 hh
        cases he0 : e[0]? with
        | none => simp only [he0] at hh; cases hh
        | some e0 =>
          simp only [he0] at hh
          by_cases hneg : total - e0 < 0
          · rw [if_pos hneg] at hh
            cases hfix : fix_prevdays st0 pd area total with
            | none => simp only [hfix] at hh; cases hh
            | some st1 =>
              simp only [hfix] at hh
              cases hh
              exact isSome_dictGet2_set2 _ _ _ (fixAux_cell_mono hfix hc0)
          · rw [if_neg hneg] at hh
            cases hh
            exact isSome_dictGet2_set2 _ _ _ hc0
      cases is1st with
      | true =>
        simp only [if_true] at h
        cases hl : dictGet loc area with
        | some e =>
          simp only [hl] at h
          exact hbranch stat loc e (ar ++ [area]) hc h
        | none =>
          simp only [hl] at h
          exact hbranch stat (dictSet loc area [0]) [0] (ar ++ [area]) hc h
      | false =>
        simp only [Bool.false_eq_true, if_false] at h
        cases hm : dictGet stat pd with
        | none => simp only [hm] at h; cases h
        | some m =>
          simp only [hm] at h
          cases ha : dictGet m area with
          | none =>
            simp only [ha] at h
            have hset : dictSet stat pd (dictSet m area [0]) =
                dictSet2 stat pd area [0] := by
              unfold dictSet2
              rw [hm]
            rw [hset] at h
            exact hbranch _ loc [0] ar (isSome_dictGet2_set2 _ _ _ hc) h
          | some e =>
            simp only [ha] at h
            exact hbranch stat loc e ar hc h

theorem ingest_fold_inv {is1st : Bool} {date pd : PyDate} (lines : List Str) :
    ∀ (stat : StatTable) (loc : AreaMap) (ar : List Str), InvTable stat →
      (∀ l ∈ lines, ∀ a v, snapLine? l = some (a, v) → 0 ≤ v) →
      (is1st = false → ∀ l ∈ lines, ∀ a v, snapLine? l = some (a, v) →
        underInvestigation a = false → (dictGet2 stat pd a).isSome) →
      ∀ out, List.foldlM (processLine is1st date pd) (stat, loc, ar) lines =
        some out → InvTable out.1 := by
  induction lines with
  | nil =>
    intro stat loc ar hinv _ _ out h
    have hh : (stat, loc, ar) = out := Option.some.inj h
    rw [← hh]
    exact hinv
  | cons l ls ih =>
    intro stat loc ar hinv hval hpres out h
    rw [List.foldlM_cons] at h
    cases hp : processLine is1st date pd (stat, loc, ar) l with
    | none => rw [hp] at h; cases h
    | some s1 =>
      rw [hp] at h
      have h : List.foldlM (processLine is1st date pd) s1 ls = some out := h
      obtain ⟨st1, l1, a1⟩ := s1
      refine ih st1 l1 a1 ?_ (fun x hx => hval x (List.mem_cons_of_mem _ hx))
        ?_ out h
      · exact processLine_inv hinv (fun a v hv => hval l (by simp) a v hv)
          (fun h1 a v hv hu => hpres h1 l (by simp) a v hv hu) hp
      · intro h1 x hx a v hv hu
        exact processLine_cell_mono hp
          (hpres h1 x (List.mem_cons_of_mem _ hx) a v hv hu)

theorem generate_from_file_inv {g : Gen} {date : PyDate}
    {file : Option (List Str)} {g' : Gen} (hinv : InvGen g)
    (hval : ∀ lines, file = some lines → ∀ l ∈ lines, ∀ a v,
      snapLine? l = some (a, v) → 0 ≤ v)
    (hpres : ∀ lines, file = some lines → ∀ pd, prevDate? date = some pd →
      (if g.stat_data.isEmpty then some date else g.min_date) ≠ some date →
      ∀ l ∈ lines, ∀ a v, snapLine? l = some (a, v) →
        underInvestigation a = false → (dictGet2 g.stat_data pd a).isSome)
    (h : generate_from_file g date file = some g') : InvGen g' := by
  unfold generate_from_file at h
  cases hp : prevDate? date with
  | none => simp only [hp] at h; cases h
  | some pd =>
    cases hie : g.stat_data.isEmpty with
    | true =>
      cases file with
      | none =>
        simp only [hp, hie, if_true, decide_True, not_true_eq_false,
          false_and, if_false] at h
        cases h
        exact hinv
      | some lines =>
        simp only [hp, hie, if_true, decide_True, not_true_eq_false,
          false_and, if_false] at h
        cases hfold : List.foldlM (processLine true date pd)
            (g.stat_data, ([], g.area_list)) lines with
        | none => rw [hfold] at h; cases h
        | some s =>
          rw [hfold] at h
          obtain ⟨st, l2, ar⟩ := s
          cases h
          refine ingest_fold_inv lines g.stat_data [] g.area_list hinv
            (fun l hl => hval lines rfl l hl) ?_ _ hfold
          intro h1
          exact absurd h1 (by simp)
    | false =>
      cases file with
      | none =>
        simp only [hp, hie, Bool.false_eq_true, if_false] at h
        split at h
        · cases h
          exact hinv
        · cases h
          exact hinv
      | some lines =>
        simp only [hp, hie, Bool.false_eq_true, if_false] at h
        split at h
        · cases h
          exact hinv
        · cases hfold : List.foldlM
              (processLine (decide (g.min_date = some date)) date pd)
              (g.stat_data, ([], g.area_list)) lines with
          | none => rw [hfold] at h; cases h
          | some s =>
            rw [hfold] at h
            obtain ⟨st, l2, ar⟩ := s
            cases h
            refine ingest_fold_inv lines g.stat_data [] g.area_list hinv
              (fun l hl => hval lines rfl l hl) ?_ _ hfold
            intro h1 l hl a v hv hu
            refine hpres lines rfl pd hp ?_ l hl a v hv hu
            rw [hie]
            simp only [Bool.false_eq_true, if_false]
            rename_i hcond
            rw [not_and_or] at hcond
            rcases hcond with hcond | hcond
            · rw [not_not] at hcond
              exact fun hmd => absurd (of_decide_eq_true hcond)
                (by exact fun hh => (by rw [hh] at h1; simp at h1 : False))
            · exact of_decide_eq_false h1

/-! ## C4: the StatTable invariant -/

/-- C4 (amended): the three operations preserve the StatTable invariant
(every recorded cell a pair of defined, non-negative numbers) under the
guards the source actually needs: cache rows must carry non-negative
integers, snapshot totals must be non-negative, and every non-first-day
snapshot area (outside the under-investigation prefix) must already be
present in the previous day's record. -/
theorem ops_preserve_invariant_guarded :
    (∀ (g : Gen) (file : Option (List Str)) (g' : Gen) (b : Bool),
      InvGen g →
      (∀ lines, file = some lines → ∀ l ∈ lines, ∀ r, lineFull? l = some r →
        0 ≤ r.2.2.1 ∧ 0 ≤ r.2.2.2) →
      load_cache g file = some (g', b) → InvGen g') ∧
    (∀ (t : StatTable) (d : PyDate) (a : Str) (tot : Int) (t' : StatTable),
      InvTable t → 0 ≤ tot → fix_prevdays t d a tot = some t' →
      InvTable t') ∧
    (∀ (g : Gen) (date : PyDate) (file : Option (List Str)) (g' : Gen),
      InvGen g →
      (∀ lines, file = some lines → ∀ l ∈ lines, ∀ a v,
        snapLine? l = some (a, v) → 0 ≤ v) →
      (∀ lines, file = some lines → ∀ pd, prevDate? date = some pd →
        (if g.stat_data.isEmpty then some date else g.min_date) ≠ some date →
        ∀ l ∈ lines, ∀ a v, snapLine? l = some (a, v) →
          underInvestigation a = false → (dictGet2 g.stat_data pd a).isSome) →
      generate_from_file g date file = some g' → InvGen g') := by
  refine ⟨?_, ?_, ?_⟩
  · intro g file g' b hinv hrows h
    cases file with
    | none =>
      unfold load_cache at h
      cases h
      exact hinv
    | some lines =>
      unfold load_cache at h
      have h : (match List.foldl cacheLine (g.stat_data, none) lines with
        | (_, none) => none
        | (stat, some d) =>
          some (Gen.mk (some d) stat g.area_list, true)) = some (g', b) := h
      cases hfold : List.foldl cacheLine (g.stat_data, none) lines with
      | mk st mdo =>
        rw [hfold] at h
        cases mdo with
        | none => cases h
        | some d =>
          cases h
          have := load_fold_inv lines g.stat_data none hinv
            (fun l hl => hrows lines rfl l hl)
          rw [hfold] at this
          exact this
  · intro t d a tot t' hinv htot h
    exact fixAux_inv hinv htot h
  · intro g date file g' hinv hval hpres h
    exact generate_from_file_inv hinv hval hpres h

/-- C4 counterexample: cache loading does not preserve the invariant in
general.  Loading the single well-formed row `2020-01-02,A,-1,-1` into
an empty (invariant-satisfying) accumulator succeeds and leaves a table
whose cell carries negative numbers. -/
theorem load_cache_breaks_invariant :
    InvGen Gen.init ∧
    load_cache Gen.init (some ["2020-01-02,A,-1,-1".toList]) =
      some (⟨some ⟨2020, 1, 2⟩,
        [(⟨2020, 1, 2⟩, [("A".toList, [-1, -1])])], []⟩, true) ∧
    ¬ InvGen ⟨some ⟨2020, 1, 2⟩,
        [(⟨2020, 1, 2⟩, [("A".toList, [-1, -1])])], []⟩ := by
  refine ⟨?_, ?_, ?_⟩ <;> decide

theorem ops_preserve_invariant_guarded_witness :
    InvTable [(⟨2020, 7, 2⟩, [("A".toList, [20, 10])]),
      (⟨2020, 7, 1⟩, [("A".toList, [10, 10])])] :=
  ops_preserve_invariant_guarded.2.1
    [(⟨2020, 7, 2⟩, [("A".toList, [25, 15])]),
     (⟨2020, 7, 1⟩, [("A".toList, [10, 10])])]
    ⟨2020, 7, 2⟩ "A".toList 20
    [(⟨2020, 7, 2⟩, [("A".toList, [20, 10])]),
     (⟨2020, 7, 1⟩, [("A".toList, [10, 10])])]
    (by decide) (by decide) (by decide)

/-! ## Frame properties of the ingestion loop -/

theorem mem_tkeys_dictSet2 {t : StatTable} {k : PyDate} (d : PyDate)
    (a : Str) (e : Entry) (h : k ∈ tkeys t) :
    k ∈ tkeys (dictSet2 t d a e) := by
  by_cases hd : d ∈ tkeys t
  · rw [tkeys_dictSet2_mem _ _ hd]; exact h
  · rw [tkeys_dictSet2_not_mem _ _ hd]
    exact List.mem_append_left _ h

theorem mem_tkeys_dictSet2_self (t : StatTable) (d : PyDate) (a : Str)
    (e : Entry) : d ∈ tkeys (dictSet2 t d a e) := by
  by_cases hd : d ∈ tkeys t
  · rw [tkeys_dictSet2_mem _ _ hd]; exact hd
  · rw [tkeys_dictSet2_not_mem _ _ hd]
    exact List.mem_append_right _ (by simp)

theorem processLine_frame {is1st : Bool} {date pd : PyDate}
    {stat : StatTable} {loc : AreaMap} {ar : List Str} {line : Str}
    {out : IngestState}
    (h : processLine is1st date pd (stat, loc, ar) line = some out) :
    (is1st = false → out.2.2 = ar) ∧
    (∀ k, k ∈ tkeys stat → k ∈ tkeys out.1) ∧
    (nodupKeys stat → nodupKeys out.1) ∧
    (out.1 = stat ∨ date ∈ tkeys out.1) := by
  unfold processLine at h
  cases hsl : snapLine? line with
  | none =>
    simp only [hsl] at h
    cases h
    exact ⟨fun _ => rfl, fun k hk => hk, fun hd => hd, Or.inl rfl⟩
  | some av =>
    obtain ⟨area, total⟩ := av
    simp only [hsl] at h
    cases hui : underInvestigation area with
    | true =>
      simp only [hui, if_true] at h
      cases h
      exact ⟨fun _ => rfl, fun k hk => hk, fun hd => hd, Or.inl rfl⟩
    | false =>
      simp only [hui, Bool.false_eq_true, if_false] at h
      have hbranch : ∀ (st0 : StatTable) (lp : AreaMap) (e : Entry)
          (ars : List Str),
          (∀ k, k ∈ tkeys stat → k ∈ tkeys st0) →
          (nodupKeys stat → nodupKeys st0) →
          (match e[0]? with
            | none => none
            | some e0 =>
              let new := total - e0
              if new < 0 then
                match fix_prevdays st0 pd area total with
                | none => none
                | some stat => some (dictSet2 stat date area [total, 0], lp, ars)
              else some (dictSet2 st0 date area [total, new], lp, ars)) =
            some out →
          out.2.2 = ars ∧ (∀ k, k ∈ tkeys stat → k ∈ tkeys out.1) ∧
            (nodupKeys stat → nodupKeys out.1) ∧ date ∈ tkeys out.1 := by
        intro st0 lp e ars hkeys hnd hh
        cases he0 : e[0]? with
        | none => simp only [he0] at hh; cases hh
        | some e0 =>
          simp only [he0] at hh
          by_cases hneg : total - e0 < 0
          · rw [if_pos hneg] at hh
            cases hfix : fix_prevdays st0 pd area total with
            | none => simp only [hfix] at hh; cases hh
            | some st1 =>
              simp only [hfix] at hh
              cases hh
              refine ⟨rfl, ?_, ?_, mem_tkeys_dictSet2_self _ _ _ _⟩
              · intro k hk
                refine mem_tkeys_dictSet2 _ _ _ ?_
                rw [fixAux_keys hfix]
                exact hkeys k hk
              · intro hd
                refine nodup_dictSet2 _ _ _ ?_
                unfold nodupKeys
                rw [fixAux_keys hfix]
                exact hnd hd
          · rw [if_neg hneg] at hh
            cases hh
            exact ⟨rfl, fun k hk => mem_tkeys_dictSet2 _ _ _ (hkeys k hk),
              fun hd => nodup_dictSet2 _ _ _ (hnd hd),
              mem_tkeys_dictSet2_self _ _ _ _⟩
      cases is1st with
      | true =>
        simp only [if_true] at h
        have hout : out.2.2 = ar ++ [area] ∧
            (∀ k, k ∈ tkeys stat → k ∈ tkeys out.1) ∧
            (nodupKeys stat → nodupKeys out.1) ∧ date ∈ tkeys out.1 := by
          cases hl : dictGet loc area with
          | some e =>
            simp only [hl] at h
            exact hbranch stat loc e (ar ++ [area]) (fun k hk => hk)
              (fun hd => hd) h
          | none =>
            simp only [hl] at h
            exact hbranch stat (dictSet loc area [0]) [0] (ar ++ [area])
              (fun k hk => hk) (fun hd => hd) h
        exact ⟨fun hc => (nomatch hc), hout.2.1, hout.2.2.1, Or.inr hout.2.2.2⟩
      | false =>
        simp only [Bool.false_eq_true, if_false] at h
        cases hm : dictGet stat pd with
        | none => simp only [hm] at h; cases h
        | some m =>
          simp only [hm] at h
          cases ha : dictGet m area with
          | none =>
            simp only [ha] at h
            have hpd : pd ∈ tkeys stat :=
              dictGet_isSome_iff.mp (by simp [hm])
            have hkeq : tkeys (dictSet stat pd (dictSet m area [0])) =
                tkeys stat := dictSet_map_fst_mem _ hpd
            have hout := hbranch (dictSet stat pd (dictSet m area [0])) loc
              [0] ar (fun k hk => by rw [hkeq]; exact hk)
              (fun hd => by unfold nodupKeys; rw [hkeq]; exact hd) h
            exact ⟨fun _ => hout.1, hout.2.1, hout.2.2.1, Or.inr hout.2.2.2⟩
          | some e =>
            simp only [ha] at h
            have hout := hbranch stat loc e ar (fun k hk => hk)
              (fun hd => hd) h
            exact ⟨fun _ => hout.1, hout.2.1, hout.2.2.1, Or.inr hout.2.2.2⟩

theorem ingest_fold_frame {is1st : Bool} {date pd : PyDate}
    (lines : List Str) :
    ∀ (stat : StatTable) (loc : AreaMap) (ar : List Str) (out : IngestState),
      List.foldlM (processLine is1st date pd) (stat, loc, ar) lines =
        some out →
      (is1st = false → out.2.2 = ar) ∧
      (∀ k, k ∈ tkeys stat → k ∈ tkeys out.1) ∧
      (nodupKeys stat → nodupKeys out.1) ∧
      (out.1 = stat ∨ date ∈ tkeys out.1) := by
  induction lines with
  | nil =>
    intro stat loc ar out h
    have hh : (stat, loc, ar) = out := Option.some.inj h
    rw [← hh]
    exact ⟨fun _ => rfl, fun k hk => hk, fun hd => hd, Or.inl rfl⟩
  | cons l ls ih =>
    intro stat loc ar out h
    rw [List.foldlM_cons] at h
    cases hp : processLine is1st date pd (stat, loc, ar) l with
    | none => rw [hp] at h; cases h
    | some s1 =>
      rw [hp] at h
      have h : List.foldlM (processLine is1st date pd) s1 ls = some out := h
      obtain ⟨st1, l1, a1⟩ := s1
      have h1 := processLine_frame hp
      have h2 := ih st1 l1 a1 out h
      refine ⟨?_, ?_, ?_, ?_⟩
      · intro hc
        rw [h2.1 hc]
        exact h1.1 hc
      · exact fun k hk => h2.2.1 k (h1.2.1 k hk)
      · exact fun hd => h2.2.2.1 (h1.2.2.1 hd)
      · rcases h1.2.2.2 with heq | hmem
        · rw [← heq]
          exact h2.2.2.2
        · exact Or.inr (h2.2.1 date hmem)

theorem gff_frame {g : Gen} {date : PyDate} {file : Option (List Str)}
    {g' : Gen} (h : generate_from_file g date file = some g') :
    g'.min_date = (if g.stat_data.isEmpty then some date else g.min_date) ∧
    ((if g.stat_data.isEmpty then some date else g.min_date) ≠ some date →
      g'.area_list = g.area_list) ∧
    (∀ k, k ∈ tkeys g.stat_data → k ∈ tkeys g'.stat_data) ∧
    (nodupKeys g.stat_data → nodupKeys g'.stat_data) ∧
    (g'.stat_data = g.stat_data ∨ date ∈ tkeys g'.stat_data) := by
  unfold generate_from_file at h
  cases hp : prevDate? date with
  | none => simp only [hp] at h; cases h
  | some pd =>
    cases hie : g.stat_data.isEmpty with
    | true =>
      cases file with
      | none =>
        simp only [hp, hie, if_true, decide_True, not_true_eq_false,
          false_and, if_false] at h
        cases h
        exact ⟨by simp [hie], fun hmd => rfl, fun k hk => hk, fun hd => hd,
          Or.inl rfl⟩
      | some lines =>
        simp only [hp, hie, if_true, decide_True, not_true_eq_false,
          false_and, if_false] at h
        cases hfold : List.foldlM (processLine true date pd)
            (g.stat_data, ([], g.area_list)) lines with
        | none => rw [hfold] at h; cases h
        | some s =>
          rw [hfold] at h
          obtain ⟨st, l2, ar⟩ := s
          cases h
          have hf := ingest_fold_frame lines g.stat_data [] g.area_list
            (st, l2, ar) hfold
          exact ⟨by simp [hie], fun hmd => absurd (by simp [hie]) hmd,
            hf.2.1, hf.2.2.1, hf.2.2.2⟩
    | false =>
      cases file with
      | none =>
        simp only [hp, hie, Bool.false_eq_true, if_false] at h
        split at h <;>
        · cases h
          exact ⟨by simp [hie], fun _ => rfl, fun k hk => hk, fun hd => hd,
            Or.inl rfl⟩
      | some lines =>
        simp only [hp, hie, Bool.false_eq_true, if_false] at h
        split at h
        · cases h
          exact ⟨by simp [hie], fun _ => rfl, fun k hk => hk, fun hd => hd,
            Or.inl rfl⟩
        · cases hfold : List.foldlM
              (processLine (decide (g.min_date = some date)) date pd)
              (g.stat_data, ([], g.area_list)) lines with
          | none => rw [hfold] at h; cases h
          | some s =>
            rw [hfold] at h
            obtain ⟨st, l2, ar⟩ := s
            cases h
            have hf := ingest_fold_frame lines g.stat_data [] g.area_list
              (st, l2, ar) hfold
            refine ⟨by simp [hie], ?_, hf.2.1, hf.2.2.1, hf.2.2.2⟩
            intro hmd
            simp only [Bool.false_eq_true, if_false] at hmd
            exact hf.1 (decide_eq_false hmd)

/-! ## Directory-run lemmas -/

theorem isEmpty_eq_false {l : StatTable} (h : l ≠ []) : l.isEmpty = false := by
  cases l with
  | nil => exact absurd rfl h
  | cons a t => rfl

theorem tkeys_ne_nil {t : StatTable} (h : t ≠ []) : tkeys t ≠ [] := by
  cases t with
  | nil => exact absurd rfl h
  | cons a r => simp [tkeys]

theorem stat_ne_nil_of_mem {t : StatTable} {k : PyDate} (h : k ∈ tkeys t) :
    t ≠ [] := by
  cases t with
  | nil => simp [tkeys] at h
  | cons a r => simp

theorem dirStep_frame {g g' : Gen} {df : PyDate × Option (List Str)}
    (h : dirStep g df = some g') :
    ((g.stat_data = [] ∨ ∃ m, g.min_date = some m ∧ m ∈ tkeys g.stat_data) →
      g'.stat_data = [] ∨ ∃ m, g'.min_date = some m ∧ m ∈ tkeys g'.stat_data) ∧
    (nodupKeys g.stat_data → nodupKeys g'.stat_data) := by
  unfold dirStep at h
  cases hk : (dictGet g.stat_data df.1).isSome with
  | true =>
    simp only [hk, if_true] at h
    cases h
    exact ⟨fun hg => hg, fun hd => hd⟩
  | false =>
    simp only [hk, Bool.false_eq_true, if_false] at h
    have hf := gff_frame h
    refine ⟨?_, hf.2.2.2.1⟩
    intro hgood
    rcases hgood with hnil | ⟨m, hmin, hmem⟩
    · have hie : g.stat_data.isEmpty = true := by rw [hnil]; rfl
      rcases hf.2.2.2.2 with heq | hmemd
      · left; rw [heq]; exact hnil
      · right
        refine ⟨df.1, ?_, hmemd⟩
        rw [hf.1, hie]
        rfl
    · right
      have hie : g.stat_data.isEmpty = false :=
        isEmpty_eq_false (stat_ne_nil_of_mem hmem)
      refine ⟨m, ?_, hf.2.2.1 m hmem⟩
      rw [hf.1, hie]
      simpa using hmin

theorem dir_fold_frame (files : List (PyDate × Option (List Str))) :
    ∀ (g g₁ : Gen), List.foldlM dirStep g files = some g₁ →
    ((g.stat_data = [] ∨ ∃ m, g.min_date = some m ∧ m ∈ tkeys g.stat_data) →
      g₁.stat_data = [] ∨ ∃ m, g₁.min_date = some m ∧ m ∈ tkeys g₁.stat_data) ∧
    (nodupKeys g.stat_data → nodupKeys g₁.stat_data) := by
  induction files with
  | nil =>
    intro g g₁ h
    have hh : g = g₁ := Option.some.inj h
    rw [← hh]
    exact ⟨fun hg => hg, fun hd => hd⟩
  | cons df dfs ih =>
    intro g g₁ h
    rw [List.foldlM_cons] at h
    cases hp : dirStep g df with
    | none => rw [hp] at h; cases h
    | some g2 =>
      rw [hp] at h
      have h : List.foldlM dirStep g2 dfs = some g₁ := h
      have h1 := dirStep_frame hp
      have h2 := ih g2 g₁ h
      exact ⟨fun hg => h2.1 (h1.1 hg), fun hd => h2.2 (h1.2 hd)⟩

theorem dirStep_seeded {g g' : Gen} {df : PyDate × Option (List Str)}
    {m : PyDate} (h : dirStep g df = some g') (ha : g.area_list = [])
    (hne : g.stat_data ≠ []) (hm : g.min_date = some m) (hd : df.1 ≠ m) :
    g'.area_list = [] ∧ g'.stat_data ≠ [] ∧ g'.min_date = some m := by
  unfold dirStep at h
  cases hk : (dictGet g.stat_data df.1).isSome with
  | true =>
    simp only [hk, if_true] at h
    cases h
    exact ⟨ha, hne, hm⟩
  | false =>
    simp only [hk, Bool.false_eq_true, if_false] at h
    have hf := gff_frame h
    have hie : g.stat_data.isEmpty = false := isEmpty_eq_false hne
    have hmd : (if g.stat_data.isEmpty then some df.1 else g.min_date) =
        some m := by rw [hie]; simpa using hm
    refine ⟨?_, ?_, by rw [hf.1, hmd]⟩
    · rw [hf.2.1 (by rw [hmd]; exact fun hh => hd (Option.some.inj hh).symm)]
      exact ha
    · obtain ⟨k, hkmem⟩ := List.exists_mem_of_ne_nil _ (tkeys_ne_nil hne)
      exact stat_ne_nil_of_mem (hf.2.2.1 k hkmem)

theorem dir_fold_seeded (files : List (PyDate × Option (List Str))) :
    ∀ (g g₁ : Gen) (m : PyDate), List.foldlM dirStep g files = some g₁ →
    g.area_list = [] → g.stat_data ≠ [] → g.min_date = some m →
    (∀ df ∈ files, df.1 ≠ m) →
    g₁.area_list = [] ∧ g₁.stat_data ≠ [] ∧ g₁.min_date = some m := by
  induction files with
  | nil =>
    intro g g₁ m h ha hne hm _
    have hh : g = g₁ := Option.some.inj h
    rw [← hh]
    exact ⟨ha, hne, hm⟩
  | cons df dfs ih =>
    intro g g₁ m h ha hne hm hdm
    rw [List.foldlM_cons] at h
    cases hp : dirStep g df with
    | none => rw [hp] at h; cases h
    | some g2 =>
      rw [hp] at h
      have h : List.foldlM dirStep g2 dfs = some g₁ := h
      have h1 := dirStep_seeded hp ha hne hm (hdm df (by simp))
      exact ih g2 g₁ m h h1.1 h1.2.1 h1.2.2
        (fun x hx => hdm x (List.mem_cons_of_mem _ hx))

/-! ## Sorting: membership -/

theorem mem_insertDate {x d : PyDate} {l : List PyDate} :
    x ∈ insertDate d l ↔ x = d ∨ x ∈ l := by
  induction l with
  | nil => simp [insertDate]
  | cons y ys ih =>
    unfold insertDate
    by_cases hle : dateLeB d y = true
    · simp [hle]
    · simp only [Bool.not_eq_true] at hle
      simp only [hle, Bool.false_eq_true, if_false, List.mem_cons, ih]
      tauto

theorem mem_sortDates {x : PyDate} {l : List PyDate} :
    x ∈ sortDates l ↔ x ∈ l := by
  induction l with
  | nil => simp [sortDates]
  | cons y ys ih =>
    unfold sortDates
    rw [mem_insertDate, ih]
    simp

/-! ## Serialization with no areas -/

theorem csvRows_empty_areas {g : Gen} (h : g.area_list = [])
    (ds : List PyDate) (hds : ∀ d ∈ ds, d ∈ tkeys g.stat_data) :
    csvRows g ds = some [] := by
  induction ds with
  | nil => rfl
  | cons d rest ih =>
    unfold csvRows
    have hsome : (dictGet g.stat_data d).isSome := by
      rw [dictGet_isSome_iff]
      exact hds d (by simp)
    rw [Option.isSome_iff_exists] at hsome
    obtain ⟨m, hmm⟩ := hsome
    rw [hmm, h]
    have hrest := ih (fun x hx => hds x (List.mem_cons_of_mem _ hx))
    rw [hrest]
    rfl

theorem to_csvfile_empty_areas {g : Gen} (h : g.area_list = []) :
    to_csvfile g = some [headerLine] := by
  unfold to_csvfile
  rw [csvRows_empty_areas h (sortDates (List.map Prod.fst g.stat_data))
    (fun d hd => mem_sortDates.mp hd)]

/-! ## C9: isolation of snapshot-open failures -/

/-- C9 (amended): (i) a snapshot that fails to open aborts ingestion for
that date only: the accumulator is returned unchanged except that
MinDate is set to that date when the table was empty; (ii) a run whose
ingestion loop ends with a non-empty table completes normally and drops
MinDate from the table; (iii) a run whose ingestion loop ends with an
empty table but a set MinDate does *not* complete: the final
`del self.stat_data[self.min_date]` raises `KeyError`. -/
theorem dir_run_failure_isolation :
    (∀ (g : Gen) (date pd : PyDate), prevDate? date = some pd →
      generate_from_file g date none =
        some (Gen.mk (if g.stat_data.isEmpty then some date else g.min_date)
          g.stat_data g.area_list)) ∧
    (∀ (g : Gen) (files : List (PyDate × Option (List Str))) (g₁ : Gen),
      List.foldlM dirStep g files = some g₁ →
      (g.stat_data = [] ∨ ∃ m, g.min_date = some m ∧ m ∈ tkeys g.stat_data) →
      nodupKeys g.stat_data → g₁.stat_data ≠ [] →
      ∃ g', generate_from_dir g files = some g' ∧
        ∀ m, g'.min_date = some m → m ∉ tkeys g'.stat_data) ∧
    (∀ (g : Gen) (files : List (PyDate × Option (List Str))) (g₁ : Gen)
      (m : PyDate), List.foldlM dirStep g files = some g₁ →
      g₁.stat_data = [] → g₁.min_date = some m →
      generate_from_dir g files = none) := by
  refine ⟨?_, ?_, ?_⟩
  · intro g date pd hp
    unfold generate_from_file
    simp only [hp]
    split <;> split <;> rfl
  · intro g files g₁ hfold hgood hnd hne
    have hf := dir_fold_frame files g g₁ hfold
    rcases hf.1 hgood with hnil | ⟨m, hmin, hmem⟩
    · exact absurd hnil hne
    · have hdel : (dictDel g₁.stat_data m).isSome := by
        rw [dictDel_isSome_iff]
        exact hmem
      rw [Option.isSome_iff_exists] at hdel
      obtain ⟨st', hst'⟩ := hdel
      refine ⟨Gen.mk g₁.min_date st' g₁.area_list, ?_, ?_⟩
      · unfold generate_from_dir
        simp only [hfold, hmin, hst']
      · intro m' hm'
        have : m' = m := by
          simp only [hmin] at hm'
          exact (Option.some.inj hm').symm
        subst this
        exact dictDel_not_mem (hf.2 hnd) hst'
  · intro g files g₁ m hfold hnil hmin
    unfold generate_from_dir
    simp only [hfold, hmin, hnil, dictDel]

/-- C9 counterexample: a run over a single date whose snapshot fails to
open does not complete: MinDate is set to that date, the table stays
empty, and the final `del` raises `KeyError`. -/
theorem dir_run_single_failure_crash :
    generate_from_dir Gen.init [(⟨2020, 7, 1⟩, none)] = none := by decide

theorem dir_run_failure_isolation_witness :
    ∃ g', generate_from_dir Gen.init
        [(⟨2020, 7, 1⟩, some ["A,10".toList]), (⟨2020, 7, 2⟩, none)] =
        some g' ∧ ∀ m, g'.min_date = some m → m ∉ tkeys g'.stat_data :=
  dir_run_failure_isolation.2.1 Gen.init
    [(⟨2020, 7, 1⟩, some ["A,10".toList]), (⟨2020, 7, 2⟩, none)]
    ⟨some ⟨2020, 7, 1⟩, [(⟨2020, 7, 1⟩, [("A".toList, [10, 10])])],
      ["A".toList]⟩
    (by decide) (Or.inl rfl) (by decide) (by decide)

/-! ## C10: AreaList is only written on the first day -/

/-- C10: loading a cache never modifies AreaList; ingesting any date
other than (the updated) MinDate never modifies AreaList; consequently a
run seeded from a cache (non-empty table, all ingested dates different
from the cached MinDate) keeps AreaList empty and serializes exactly the
header and zero data rows, although the table is non-empty. -/
theorem area_list_frame_and_empty_output :
    (∀ (g : Gen) (file : Option (List Str)) (r : Gen × Bool),
      load_cache g file = some r → r.1.area_list = g.area_list) ∧
    (∀ (g : Gen) (date : PyDate) (file : Option (List Str)) (g' : Gen),
      generate_from_file g date file = some g' →
      (if g.stat_data.isEmpty then some date else g.min_date) ≠ some date →
      g'.area_list = g.area_list) ∧
    (∀ (g : Gen) (files : List (PyDate × Option (List Str))) (g' : Gen)
      (m : PyDate), g.area_list = [] → g.stat_data ≠ [] →
      g.min_date = some m → (∀ df ∈ files, df.1 ≠ m) →
      generate_from_dir g files = some g' →
      g'.area_list = [] ∧ to_csvfile g' = some [headerLine]) := by
  refine ⟨?_, ?_, ?_⟩
  · intro g file r h
    cases file with
    | none =>
      unfold load_cache at h
      cases h
      rfl
    | some lines =>
      unfold load_cache at h
      have h : (match List.foldl cacheLine (g.stat_data, none) lines with
        | (_, none) => none
        | (stat, some d) =>
          some (Gen.mk (some d) stat g.area_list, true)) = some r := h
      cases hfold : List.foldl cacheLine (g.stat_data, none) lines with
      | mk st mdo =>
        rw [hfold] at h
        cases mdo with
        | none => cases h
        | some d =>
          cases h
          rfl
  · intro g date file g' h hmd
    exact (gff_frame h).2.1 hmd
  · intro g files g' m ha hne hmin hdm h
    unfold generate_from_dir at h
    cases hfold : List.foldlM dirStep g files with
    | none => rw [hfold] at h; cases h
    | some g₁ =>
      rw [hfold] at h
      have hs := dir_fold_seeded files g g₁ m hfold ha hne hmin hdm
      simp only [hs.2.2] at h
      cases hdel : dictDel g₁.stat_data m with
      | none => rw [hdel] at h; cases h
      | some st' =>
        rw [hdel] at h
        cases h
        constructor
        · exact hs.1
        · exact to_csvfile_empty_areas hs.1

theorem area_list_frame_and_empty_output_witness :
    (⟨some ⟨2020, 1, 1⟩,
      [(⟨2020, 1, 2⟩, [("A".toList, [7, 2])]),
       (⟨2020, 1, 3⟩, [("A".toList, [7, 0])])], []⟩ : Gen).area_list = [] ∧
    to_csvfile ⟨some ⟨2020, 1, 1⟩,
      [(⟨2020, 1, 2⟩, [("A".toList, [7, 2])]),
       (⟨2020, 1, 3⟩, [("A".toList, [7, 0])])], []⟩ = some [headerLine] :=
  area_list_frame_and_empty_output.2.2
    ⟨some ⟨2020, 1, 1⟩,
      [(⟨2020, 1, 1⟩, [("A".toList, [5, 5])]),
       (⟨2020, 1, 2⟩, [("A".toList, [7, 2])])], []⟩
    [(⟨2020, 1, 3⟩, some ["A,7".toList])]
    ⟨some ⟨2020, 1, 1⟩,
      [(⟨2020, 1, 2⟩, [("A".toList, [7, 2])]),
       (⟨2020, 1, 3⟩, [("A".toList, [7, 0])])], []⟩
    ⟨2020, 1, 1⟩ rfl (by decide) rfl (by decide) (by decide)

/-! ## C2: the per-row delta computation -/

/-- C2: processing a non-first-day snapshot row `area,total` whose area
is recorded for the previous day as `[pt, pn]`: the delta is
`total - pt`; when it is negative the row is recorded as `(total, 0)`
after invoking the backfill corrector with (previousDate, area, total);
otherwise the row is recorded as `(total, total - pt)`. -/
theorem ingest_row_delta_spec (date pd : PyDate) (stat : StatTable)
    (loc : AreaMap) (ar : List Str) (line area : Str) (total pt pn : Int)
    (hparse : snapLine? line = some (area, total))
    (hui : underInvestigation area = false)
    (hprev : dictGet2 stat pd area = some [pt, pn]) :
    processLine false date pd (stat, loc, ar) line =
      if total - pt < 0 then
        (fix_prevdays stat pd area total).map
          (fun st => (dictSet2 st date area [total, 0], loc, ar))
      else some (dictSet2 stat date area [total, total - pt], loc, ar) := by
  unfold processLine
  unfold dictGet2 at hprev
  cases hm : dictGet stat pd with
  | none => rw [hm] at hprev; cases hprev
  | some m =>
    rw [hm] at hprev
    simp only [Option.some_bind] at hprev
    simp only [hparse, hui, Bool.false_eq_true, if_false, hm, hprev,
      List.getElem?_cons_zero]
    by_cases hneg : total - pt < 0
    · rw [if_pos hneg, if_pos hneg]
      cases hfix : fix_prevdays stat pd area total with
      | none => simp only [hfix, Option.map_none']
      | some st1 => simp only [hfix, Option.map_some']
    · rw [if_neg hneg, if_neg hneg]

theorem ingest_row_delta_spec_witness :
    processLine false ⟨2020, 7, 2⟩ ⟨2020, 7, 1⟩
      ([(⟨2020, 7, 1⟩, [("A".toList, [10, 2])])], [], []) "A,7".toList =
      some ([(⟨2020, 7, 1⟩, [("A".toList, [7, 0])]),
        (⟨2020, 7, 2⟩, [("A".toList, [7, 0])])], [], []) := by
  rw [ingest_row_delta_spec ⟨2020, 7, 2⟩ ⟨2020, 7, 1⟩ _ _ _ _ "A".toList 7 10 2
    (by decide) (by decide) (by decide)]
  rfl

/-! ## Sorting: order and permutation -/

theorem pairwise_insertDate {d : PyDate} {l : List PyDate}
    (h : List.Pairwise (fun a b => dateLeB a b = true) l) :
    List.Pairwise (fun a b => dateLeB a b = true) (insertDate d l) := by
  induction l with
  | nil => simp [insertDate]
  | cons y ys ih =>
    unfold insertDate
    rcases List.pairwise_cons.mp h with ⟨hy, hys⟩
    by_cases hle : dateLeB d y = true
    · rw [if_pos hle]
      refine List.pairwise_cons.mpr ⟨?_, h⟩
      intro z hz
      rcases List.mem_cons.mp hz with rfl | hz'
      · exact hle
      · exact dateLeB_trans hle (hy z hz')
    · rw [if_neg hle]
      refine List.pairwise_cons.mpr ⟨?_, ih hys⟩
      intro z hz
      rcases mem_insertDate.mp hz with rfl | hz'
      · simp only [Bool.not_eq_true] at hle
        exact (dateLeB_total y z).resolve_right (by simp [hle])
      · exact hy z hz'

theorem sortDates_pairwise (l : List PyDate) :
    List.Pairwise (fun a b => dateLeB a b = true) (sortDates l) := by
  induction l with
  | nil => simp [sortDates]
  | cons y ys ih => exact pairwise_insertDate ih

theorem insertDate_perm (d : PyDate) (l : List PyDate) :
    (insertDate d l).Perm (d :: l) := by
  induction l with
  | nil => simp [insertDate]
  | cons y ys ih =>
    unfold insertDate
    by_cases hle : dateLeB d y = true
    · rw [if_pos hle]
    · rw [if_neg hle]
      exact List.Perm.trans (List.Perm.cons y ih) (List.Perm.swap d y ys)

theorem sortDates_perm (l : List PyDate) : (sortDates l).Perm l := by
  induction l with
  | nil => simp [sortDates]
  | cons y ys ih =>
    exact List.Perm.trans (insertDate_perm y (sortDates ys))
      (List.Perm.cons y ih)

theorem sortDates_strict {l : List PyDate} (hnd : l.Nodup) :
    List.Pairwise (fun a b => dateLtB a b = true) (sortDates l) := by
  have hnd' : (sortDates l).Nodup := ((sortDates_perm l).nodup_iff).mpr hnd
  have hle := sortDates_pairwise l
  refine (hle.and hnd').imp ?_
  intro a b hab
  exact dateLtB_of_le_ne hab.1 hab.2

/-! ## The rows of `to_csvfile` -/

theorem rowsForDate_eq {g : Gen} {m : AreaMap} {d : PyDate}
    {areas : List Str} {rs : List Str}
    (hm : dictGet g.stat_data d = some m)
    (h : rowsForDate m d areas = some rs) :
    rs = areas.map (rowLine g d) := by
  induction areas generalizing rs with
  | nil =>
    unfold rowsForDate at h
    cases h
    rfl
  | cons a rest ih =>
    unfold rowsForDate at h
    cases ha : dictGet m a with
    | none => simp only [ha] at h; cases h
    | some e =>
      simp only [ha] at h
      cases hf : formatRow d a e with
      | none => simp only [hf] at h; cases h
      | some r =>
        simp only [hf] at h
        cases hrest : rowsForDate m d rest with
        | none => simp only [hrest] at h; cases h
        | some rs' =>
          simp only [hrest, Option.map_some'] at h
          cases h
          have he2 : ∃ t n, e = [t, n] := by
            unfold formatRow at hf
            match e with
            | [] => cases hf
            | [x] => cases hf
            | [x, y] => exact ⟨x, y, rfl⟩
            | x :: y :: z :: rest => cases hf
          obtain ⟨t, n, rfl⟩ := he2
          have hrow : rowLine g d a = r := by
            unfold rowLine dictGet2
            rw [hm]
            simp only [Option.some_bind, ha]
            unfold formatRow at hf
            exact Option.some.inj hf
          rw [List.map_cons, hrow, ih hrest]

theorem csvRows_eq {g : Gen} {ds : List PyDate} {rows : List Str}
    (hds : ∀ d ∈ ds, d ∈ tkeys g.stat_data)
    (h : csvRows g ds = some rows) :
    rows = ds.flatMap (fun d => g.area_list.map (rowLine g d)) := by
  induction ds generalizing rows with
  | nil =>
    unfold csvRows at h
    cases h
    rfl
  | cons d rest ih =>
    unfold csvRows at h
    cases hm : dictGet g.stat_data d with
    | none => simp only [hm] at h; cases h
    | some m =>
      simp only [hm] at h
      cases hr : rowsForDate m d g.area_list with
      | none => simp only [hr] at h; cases h
      | some rs =>
        simp only [hr] at h
        cases hrest : csvRows g rest with
        | none => simp only [hrest] at h; cases h
        | some rows' =>
          simp only [hrest, Option.map_some'] at h
          cases h
          rw [List.flatMap_cons, rowsForDate_eq hm hr,
            ih (fun x hx => hds x (List.mem_cons_of_mem _ hx)) hrest]

/-! ## C6: shape of the serialized output -/

/-- C6: on any state the source can reach (duplicate-free dict keys), a
successful serialization emits the fixed header line followed by one row
per (date, area) pair: the dates are exactly the table's keys in strictly
ascending order, and within each date the rows follow AreaList order.
After a full run (`generate_from_dir`), MinDate is not among the table's
keys, so it is never present in the serialized output. -/
theorem to_csvfile_shape_and_min_excluded :
    (∀ (g : Gen) (out : List Str), nodupKeys g.stat_data →
      to_csvfile g = some out →
      ∃ ds : List PyDate, ds.Perm (tkeys g.stat_data) ∧
        List.Pairwise (fun a b => dateLtB a b = true) ds ∧
        out = headerLine ::
          ds.flatMap (fun d => g.area_list.map (rowLine g d))) ∧
    (∀ (g : Gen) (files : List (PyDate × Option (List Str))) (g' : Gen)
      (m : PyDate), nodupKeys g.stat_data →
      generate_from_dir g files = some g' → g'.min_date = some m →
      m ∉ tkeys g'.stat_data) := by
  constructor
  · intro g out hnd h
    unfold to_csvfile at h
    cases hrows : csvRows g (sortDates (List.map Prod.fst g.stat_data)) with
    | none => rw [hrows] at h; cases h
    | some rows =>
      rw [hrows] at h
      cases h
      refine ⟨sortDates (List.map Prod.fst g.stat_data), sortDates_perm _,
        sortDates_strict hnd, ?_⟩
      rw [csvRows_eq (fun d hd => mem_sortDates.mp hd) hrows]
      rfl
  · intro g files g' m hnd h hmin
    unfold generate_from_dir at h
    cases hfold : List.foldlM dirStep g files with
    | none => rw [hfold] at h; cases h
    | some g₁ =>
      rw [hfold] at h
      have h : (match g₁.min_date with
        | none => some g₁
        | some m =>
          match dictDel g₁.stat_data m with
          | none => none
          | some st => some (Gen.mk g₁.min_date st g₁.area_list)) =
          some g' := h
      have hnd₁ := (dir_fold_frame files g g₁ hfold).2 hnd
      cases hm1 : g₁.min_date with
      | none =>
        simp only [hm1] at h
        cases h
        rw [hm1] at hmin
        cases hmin
      | some m₁ =>
        simp only [hm1] at h
        cases hdel : dictDel g₁.stat_data m₁ with
        | none => simp only [hdel] at h; cases h
        | some st' =>
          simp only [hdel] at h
          cases h
          have hm2 : m₁ = m := by
            simp only [hm1] at hmin
            exact Option.some.inj hmin
          subst hm2
          exact dictDel_not_mem hnd₁ hdel

theorem to_csvfile_shape_and_min_excluded_witness :
    ∃ ds : List PyDate,
      ds.Perm (tkeys (⟨some ⟨2020, 7, 1⟩,
        [(⟨2020, 7, 3⟩, [("A".toList, [20, 0])]),
         (⟨2020, 7, 2⟩, [("A".toList, [20, 10])])],
        ["A".toList]⟩ : Gen).stat_data) ∧
      List.Pairwise (fun a b => dateLtB a b = true) ds ∧
      ([headerLine, "2020-07-02,A,20,10".toList,
        "2020-07-03,A,20,0".toList] : List Str) = headerLine ::
        ds.flatMap (fun d => (["A".toList] : List Str).map
          (rowLine ⟨some ⟨2020, 7, 1⟩,
            [(⟨2020, 7, 3⟩, [("A".toList, [20, 0])]),
             (⟨2020, 7, 2⟩, [("A".toList, [20, 10])])],
            ["A".toList]⟩ d)) :=
  to_csvfile_shape_and_min_excluded.1
    ⟨some ⟨2020, 7, 1⟩,
      [(⟨2020, 7, 3⟩, [("A".toList, [20, 0])]),
       (⟨2020, 7, 2⟩, [("A".toList, [20, 10])])], ["A".toList]⟩
    [headerLine, "2020-07-02,A,20,10".toList, "2020-07-03,A,20,0".toList]
    (by decide) (by decide)

/-! ## C8: `load_cache` row by row -/

theorem dateLeB_of_not_lt {a b : PyDate} (h : dateLtB a b = false) :
    dateLeB b a = true := by
  by_cases hba : dateLtB b a = true
  · exact dateLeB_of_lt hba
  · rw [dateLtB_total h (Bool.not_eq_true _ ▸ hba)]
    exact dateLeB_refl b

theorem minUpd_none (d : PyDate) : minUpd none d = some d := rfl

theorem minUpd_some (m0 d : PyDate) :
    minUpd (some m0) d = if dateLtB d m0 then some d else some m0 := rfl

theorem cache_fold_char (lines : List Str) :
    ∀ (st : StatTable) (mdo : Option PyDate),
      lines.foldl cacheLine (st, mdo) =
        ((lines.filterMap lineFull?).foldl cacheIns st,
         (lines.filterMap lineDate?).foldl minUpd mdo) := by
  induction lines with
  | nil => intro st mdo; rfl
  | cons l ls ih =>
    intro st mdo
    rw [List.foldl_cons]
    cases hf : lineFull? l with
    | some r =>
      rw [cacheLine_full hf, ih, List.filterMap_cons_some hf,
        List.filterMap_cons_some (lineFull?_date hf),
        List.foldl_cons, List.foldl_cons]
    | none =>
      cases hd : lineDate? l with
      | none =>
        rw [cacheLine_noDate hd, ih, List.filterMap_cons_none hf,
          List.filterMap_cons_none hd]
      | some d =>
        rw [cacheLine_dateOnly hd hf, ih, List.filterMap_cons_none hf,
          List.filterMap_cons_some hd, List.foldl_cons]

theorem minUpd_fold (Ds : List PyDate) :
    ∀ (mdo : Option PyDate) (m : PyDate), Ds.foldl minUpd mdo = some m →
      (mdo = some m ∨ m ∈ Ds) ∧ (∀ d ∈ Ds, dateLeB m d = true) ∧
      ∀ m0, mdo = some m0 → dateLeB m m0 = true := by
  induction Ds with
  | nil =>
    intro mdo m h
    have hh : mdo = some m := h
    refine ⟨Or.inl hh, by simp, ?_⟩
    intro m0 h0
    rw [h0] at hh
    have hm : m = m0 := (Option.some.inj hh).symm
    rw [hm]
    exact dateLeB_refl m0
  | cons d ds ih =>
    intro mdo m h
    rw [List.foldl_cons] at h
    obtain ⟨hin, hall, hup⟩ := ih (minUpd mdo d) m h
    have hstep : ∃ r, minUpd mdo d = some r ∧ dateLeB r d = true ∧
        (∀ m0, mdo = some m0 → dateLeB r m0 = true) ∧
        (r = d ∨ mdo = some r) := by
      cases mdo with
      | none =>
        exact ⟨d, minUpd_none d, dateLeB_refl d,
          fun m0 h0 => Option.noConfusion h0, Or.inl rfl⟩
      | some m0 =>
        rw [minUpd_some]
        by_cases hlt : dateLtB d m0 = true
        · refine ⟨d, by rw [if_pos hlt], dateLeB_refl d, ?_, Or.inl rfl⟩
          intro m1 h1
          rw [← Option.some.inj h1]
          exact dateLeB_of_lt hlt
        · refine ⟨m0, by rw [if_neg hlt], ?_, ?_, Or.inr rfl⟩
          · exact dateLeB_of_not_lt (Bool.not_eq_true _ ▸ hlt)
          · intro m1 h1
            rw [← Option.some.inj h1]
            exact dateLeB_refl m0
    obtain ⟨r, hr, hrd, hrm0, hror⟩ := hstep
    have hmr : dateLeB m r = true := hup r hr
    refine ⟨?_, ?_, ?_⟩
    · rcases hin with heq | hmem
      · rw [hr] at heq
        have hrm : r = m := Option.some.inj heq
        subst hrm
        rcases hror with hlr | hlr
        · exact Or.inr (by rw [hlr]; simp)
        · exact Or.inl hlr
      · exact Or.inr (List.mem_cons_of_mem _ hmem)
    · intro d2 hd2
      rcases List.mem_cons.mp hd2 with rfl | hd3
      · exact dateLeB_trans hmr hrd
      · exact hall d2 hd3
    · intro m0 h0
      exact dateLeB_trans hmr (hrm0 m0 h0)

theorem minUpd_fold_isSome (Ds : List PyDate) :
    ∀ (mdo : Option PyDate), (mdo.isSome ∨ Ds ≠ []) →
      (Ds.foldl minUpd mdo).isSome := by
  induction Ds with
  | nil =>
    intro mdo h
    exact h.resolve_right (fun hc => hc rfl)
  | cons d ds ih =>
    intro mdo _
    rw [List.foldl_cons]
    refine ih (minUpd mdo d) (Or.inl ?_)
    cases mdo with
    | none => rfl
    | some m0 =>
      rw [minUpd_some]
      by_cases hlt : dateLtB d m0 = true
      · rw [if_pos hlt]; rfl
      · rw [if_neg hlt]; rfl

theorem filterMap_dates_nil {lines : List Str}
    (hall : ∀ l ∈ lines, lineDate? l = none) :
    lines.filterMap lineDate? = [] := by
  induction lines with
  | nil => rfl
  | cons l ls ih =>
    rw [List.filterMap_cons_none (hall l (by simp))]
    exact ih (fun x hx => hall x (List.mem_cons_of_mem _ hx))

/-- C8 (amended): `load_cache` returns `(·, false)` on an unreadable
file; on a readable file with at least one row carrying four fields and
a valid ISO date it returns `(·, true)` having inserted exactly the
fully well-formed rows (four fields, valid date, two integers) in file
order and skipped the rest, with MinDate the minimum date among the
rows with a valid *date* — rows whose integers are malformed still
count toward MinDate; on a readable file with no date-carrying row
(including an empty file) an `AttributeError` escapes the call. -/
theorem load_cache_spec_guarded :
    (∀ g : Gen, load_cache g none = some (g, false)) ∧
    (∀ (g : Gen) (lines : List Str), (∃ l ∈ lines, (lineDate? l).isSome) →
      ∃ g', load_cache g (some lines) = some (g', true) ∧
        g'.stat_data =
          (lines.filterMap lineFull?).foldl cacheIns g.stat_data ∧
        g'.area_list = g.area_list ∧
        ∃ m, g'.min_date = some m ∧ m ∈ lines.filterMap lineDate? ∧
          ∀ d ∈ lines.filterMap lineDate?, dateLeB m d = true) ∧
    (∀ (g : Gen) (lines : List Str), (∀ l ∈ lines, lineDate? l = none) →
      load_cache g (some lines) = none) := by
  refine ⟨fun g => rfl, ?_, ?_⟩
  · intro g lines hex
    have hDs : lines.filterMap lineDate? ≠ [] := by
      obtain ⟨l, hl, hsome⟩ := hex
      rw [Option.isSome_iff_exists] at hsome
      obtain ⟨d, hd⟩ := hsome
      intro hc
      have hmem : d ∈ lines.filterMap lineDate? :=
        List.mem_filterMap.mpr ⟨l, hl, hd⟩
      rw [hc] at hmem
      simp at hmem
    have hsome := minUpd_fold_isSome (lines.filterMap lineDate?) none
      (Or.inr hDs)
    rw [Option.isSome_iff_exists] at hsome
    obtain ⟨m, hm⟩ := hsome
    have hmin := minUpd_fold (lines.filterMap lineDate?) none m hm
    refine ⟨Gen.mk (some m)
      ((lines.filterMap lineFull?).foldl cacheIns g.stat_data) g.area_list,
      ?_, rfl, rfl, m, rfl, ?_, hmin.2.1⟩
    · unfold load_cache
      have hgoal : (match lines.foldl cacheLine (g.stat_data, none) with
        | (_, none) => none
        | (stat, some d) => some (Gen.mk (some d) stat g.area_list, true)) =
          some (Gen.mk (some m)
            ((lines.filterMap lineFull?).foldl cacheIns g.stat_data)
            g.area_list, true) := by
        rw [cache_fold_char, hm]
      exact hgoal
    · exact hmin.1.resolve_left (fun hc => Option.noConfusion hc)
  · intro g lines hall
    unfold load_cache
    have hgoal : (match lines.foldl cacheLine (g.stat_data, none) with
      | (_, none) => none
      | (stat, some d) => some (Gen.mk (some d) stat g.area_list, true)) =
        none := by
      rw [cache_fold_char, filterMap_dates_nil hall]
      rfl
    exact hgoal

/-- C8 counterexample: a readable cache file with no rows at all makes
`load_cache` crash (`AttributeError: 'NoneType' object has no attribute
'isoformat'` at line 43) instead of parsing nothing and returning a
boolean. -/
theorem load_cache_empty_crash : load_cache Gen.init (some []) = none := by
  decide

theorem load_cache_spec_guarded_witness :
    ∃ g', load_cache Gen.init
        (some ["2020-01-05,A,1,1".toList, "2020-01-01,B,x,y".toList]) =
        some (g', true) ∧
      g'.stat_data = (["2020-01-05,A,1,1".toList,
        "2020-01-01,B,x,y".toList].filterMap lineFull?).foldl cacheIns
        Gen.init.stat_data ∧
      g'.area_list = Gen.init.area_list ∧
      ∃ m, g'.min_date = some m ∧
        m ∈ ["2020-01-05,A,1,1".toList,
          "2020-01-01,B,x,y".toList].filterMap lineDate? ∧
        ∀ d ∈ ["2020-01-05,A,1,1".toList,
          "2020-01-01,B,x,y".toList].filterMap lineDate?,
          dateLeB m d = true :=
  load_cache_spec_guarded.2.1 Gen.init
    ["2020-01-05,A,1,1".toList, "2020-01-01,B,x,y".toList]
    ⟨"2020-01-05,A,1,1".toList, by decide, by decide⟩

/-! ## C1: the backward walk of `_fix_prevdays` -/

theorem PairTable_dictSet2 {t : StatTable} {d : PyDate} {a : Str} {x y : Int}
    (hp : PairTable t) : PairTable (dictSet2 t d a [x, y]) := by
  intro p hmem q hq
  rcases mem_dictSet2 p hmem with h | h
  · exact hp p h q hq
  · rcases h q hq with ⟨m, hm, hqm⟩ | h
    · exact hp (d, m) (dictGet_mem hm) q hqm
    · subst h
      rfl

theorem PairTable_entry {t : StatTable} {d : PyDate} {a : Str} {e : Entry}
    (hp : PairTable t) (h : dictGet2 t d a = some e) :
    ∃ x y, e = [x, y] := by
  unfold dictGet2 at h
  cases hm : dictGet t d with
  | none => rw [hm] at h; cases h
  | some m =>
    rw [hm] at h
    simp only [Option.some_bind] at h
    have hlen := hp (d, m) (dictGet_mem hm) (a, e) (dictGet_mem h)
    match e, hlen with
    | [x, y], _ => exact ⟨x, y, rfl⟩

theorem dateLtB_of_le_of_lt {a b c : PyDate} (h1 : dateLeB a b = true)
    (h2 : dateLtB b c = true) : dateLtB a c = true := by
  simp only [dateLeB, Bool.or_eq_true, decide_eq_true_eq] at h1
  rcases h1 with h1 | rfl
  · exact dateLtB_trans h1 h2
  · exact h2

theorem ne_of_dateLtB {a b : PyDate} (h : dateLtB a b = true) : a ≠ b := by
  rintro rfl
  rw [dateLtB_irrefl] at h
  cases h

theorem backD_succ {d0 p : PyDate} (hp : prevDate? d0 = some p) (i : Nat) :
    backD d0 (i + 1) = backD p i := by
  show (prevDate? d0).bind (fun q => backD q i) = backD p i
  rw [hp]
  rfl

theorem fixAux_walk (a : Str) (tot : Int) :
    ∀ (fuel : Nat) (t : StatTable) (d0 : PyDate), countLE t d0 < fuel →
    PairTable t →
    (∀ d, d ∈ tkeys t → prevDate? d = none → ∀ e, dictGet2 t d a = some e →
      e.headD 0 ≤ tot) →
    ∃ (k : Nat) (t' : StatTable), fixAux fuel t d0 a tot = some t' ∧
      (∀ i, i < k → ∃ di ti ni, backD d0 i = some di ∧
        dictGet2 t di a = some [ti, ni] ∧ tot < ti ∧
        dictGet2 t' di a =
          some [tot, if ni - (ti - tot) < 0 then 0 else ni - (ti - tot)]) ∧
      (∃ dk, backD d0 k = some dk ∧
        (dictGet t dk = none ∨
         (∃ m, dictGet t dk = some m ∧ dictGet m a = none) ∨
         (∃ ti ni, dictGet2 t dk a = some [ti, ni] ∧ ti ≤ tot))) ∧
      (∀ d' b, (b ≠ a ∨ ∀ i, i < k → backD d0 i ≠ some d') →
        dictGet2 t' d' b = dictGet2 t d' b) := by
  intro fuel
  induction fuel with
  | zero =>
    intro t d0 hcount
    exact absurd hcount (Nat.not_lt_zero _)
  | succ f ih =>
    intro t d0 hcount hpair hfloor
    cases hm : dictGet t d0 with
    | none =>
      refine ⟨0, t, ?_, by omega, ⟨d0, rfl, Or.inl hm⟩,
        fun d' b _ => rfl⟩
      unfold fixAux
      simp only [hm]
    | some m =>
      cases ha : dictGet m a with
      | none =>
        refine ⟨0, t, ?_, by omega, ⟨d0, rfl, Or.inr (Or.inl ⟨m, hm, ha⟩)⟩,
          fun d' b _ => rfl⟩
        unfold fixAux
        simp only [hm, ha]
      | some e =>
        have hee : dictGet2 t d0 a = some e := by
          unfold dictGet2
          rw [hm]
          simpa using ha
        obtain ⟨ti, ni, rfl⟩ := PairTable_entry hpair hee
        by_cases hgt : ti > tot
        · cases hp : prevDate? d0 with
          | none =>
            exfalso
            have hmem : d0 ∈ tkeys t := dictGet_isSome_iff.mp (by simp [hm])
            have := hfloor d0 hmem hp [ti, ni] hee
            simp only [List.headD_cons] at this
            omega
          | some p =>
            set new2 : Int :=
              if ni - (ti - tot) < 0 then 0 else ni - (ti - tot) with hnew2
            set t1 : StatTable := dictSet t d0 (dictSet m a [tot, new2])
              with ht1
            have ht1set : t1 = dictSet2 t d0 a [tot, new2] := by
              rw [ht1]
              unfold dictSet2
              rw [hm]
            have heq : fixAux (f + 1) t d0 a tot = fixAux f t1 p a tot := by
              conv_lhs => unfold fixAux
              simp only [hm, ha, List.getElem?_cons_zero,
                List.getElem?_cons_succ, if_pos hgt, hp, ← hnew2, ← ht1]
            have hcount1 : countLE t1 p < f := by
              have h1 := countLE_set_lt hm hp (dictSet m a [tot, new2])
              rw [← ht1] at h1
              omega
            have hpair1 : PairTable t1 := by
              rw [ht1set]
              exact PairTable_dictSet2 hpair
            have hkeys1 : tkeys t1 = tkeys t := by
              rw [ht1set]
              exact tkeys_dictSet2_mem _ _
                (dictGet_isSome_iff.mp (by simp [hm]))
            have hfloor1 : ∀ d, d ∈ tkeys t1 → prevDate? d = none →
                ∀ e2, dictGet2 t1 d a = some e2 → e2.headD 0 ≤ tot := by
              intro d hd hpn e2 he2
              have hne : d ≠ d0 := by
                rintro rfl
                rw [hp] at hpn
                cases hpn
              rw [ht1set, dictGet2_set2_ne _ _ _ _ _ _
                (Or.inl (Ne.symm hne))] at he2
              rw [hkeys1] at hd
              exact hfloor d hd hpn e2 he2
            obtain ⟨k', t', heq', hvis, hstop, hframe⟩ :=
              ih t1 p hcount1 hpair1 hfloor1
            have hlt_pd : dateLtB p d0 = true := prevDate?_lt hp
            have hsub_ne : ∀ i, i < k' → backD p i ≠ some d0 := by
              intro i hi hbi
              have hle := backD_le hbi
              have := dateLtB_of_le_of_lt hle hlt_pd
              rw [dateLtB_irrefl] at this
              cases this
            refine ⟨k' + 1, t', by rw [heq, heq'], ?_, ?_, ?_⟩
            · intro i hi
              cases i with
              | zero =>
                refine ⟨d0, ti, ni, rfl, hee, hgt, ?_⟩
                rw [hframe d0 a (Or.inr hsub_ne), ht1set, dictGet2_set2_self]
              | succ j =>
                obtain ⟨dj, tj, nj, hbj, hentry, hltj, hfin⟩ :=
                  hvis j (by omega)
                have hdj_ne : dj ≠ d0 := by
                  have hle := backD_le hbj
                  exact ne_of_dateLtB (dateLtB_of_le_of_lt hle hlt_pd)
                refine ⟨dj, tj, nj, by rw [backD_succ hp]; exact hbj, ?_,
                  hltj, hfin⟩
                rw [ht1set, dictGet2_set2_ne _ _ _ _ _ _
                  (Or.inl (Ne.symm hdj_ne))] at hentry
                exact hentry
            · obtain ⟨dk, hbk, hdisj⟩ := hstop
              have hdk_ne : dk ≠ d0 := by
                have hle := backD_le hbk
                exact ne_of_dateLtB (dateLtB_of_le_of_lt hle hlt_pd)
              refine ⟨dk, by rw [backD_succ hp]; exact hbk, ?_⟩
              have hget : dictGet t1 dk = dictGet t dk := by
                rw [ht1set]
                exact dictGet_set2_ne _ _ _ _ _ (Ne.symm hdk_ne)
              rcases hdisj with h1 | ⟨m2, hm2, ha2⟩ | ⟨ti2, ni2, he2, hle2⟩
              · exact Or.inl (by rw [← hget]; exact h1)
              · exact Or.inr (Or.inl ⟨m2, by rw [← hget]; exact hm2, ha2⟩)
              · refine Or.inr (Or.inr ⟨ti2, ni2, ?_, hle2⟩)
                rw [ht1set, dictGet2_set2_ne _ _ _ _ _ _
                  (Or.inl (Ne.symm hdk_ne))] at he2
                exact he2
            · intro d' b hb
              rcases hb with hb | hb
              · rw [hframe d' b (Or.inl hb), ht1set,
                  dictGet2_set2_ne _ _ _ _ _ _ (Or.inr (Ne.symm hb))]
              · have hd0ne : d' ≠ d0 := by
                  intro hc
                  refine hb 0 (by omega) ?_
                  rw [hc]
                  rfl
                have hsub : ∀ i, i < k' → backD p i ≠ some d' := by
                  intro i hi
                  have hh := hb (i + 1) (by omega)
                  rw [backD_succ hp] at hh
                  exact hh
                rw [hframe d' b (Or.inr hsub), ht1set,
                  dictGet2_set2_ne _ _ _ _ _ _ (Or.inl (Ne.symm hd0ne))]
        · refine ⟨0, t, ?_, by omega,
            ⟨d0, rfl, Or.inr (Or.inr ⟨ti, ni, hee, by omega⟩)⟩,
            fun d' b _ => rfl⟩
          unfold fixAux
          simp only [hm, ha, List.getElem?_cons_zero, if_neg hgt]

/-- C1 (amended): on tables of the specification's data model (every
cell an integer pair), provided any floor date (one with no previous
calendar day) recorded for the area already satisfies
`recordedTotal ≤ newTotal`, the Backfill Corrector walks backward one
calendar day at a time from `startDate`: there is a walk length `k` such
that each of the `k` visited dates held an entry `[ti, ni]` with
`newTotal < ti` and ends overwritten with
`[newTotal, max 0 (ni - (ti - newTotal))]`, the walk stops at the first
date absent from the table, lacking the area, or whose total is already
`≤ newTotal`, and every other cell is unchanged. -/
theorem fix_prevdays_walk_spec (t : StatTable) (d0 : PyDate) (a : Str)
    (tot : Int) (hpair : PairTable t)
    (hfloor : ∀ d, d ∈ tkeys t → prevDate? d = none →
      ∀ e, dictGet2 t d a = some e → e.headD 0 ≤ tot) :
    ∃ (k : Nat) (t' : StatTable), fix_prevdays t d0 a tot = some t' ∧
      (∀ i, i < k → ∃ di ti ni, backD d0 i = some di ∧
        dictGet2 t di a = some [ti, ni] ∧ tot < ti ∧
        dictGet2 t' di a =
          some [tot, if ni - (ti - tot) < 0 then 0 else ni - (ti - tot)]) ∧
      (∃ dk, backD d0 k = some dk ∧
        (dictGet t dk = none ∨
         (∃ m, dictGet t dk = some m ∧ dictGet m a = none) ∨
         (∃ ti ni, dictGet2 t dk a = some [ti, ni] ∧ ti ≤ tot))) ∧
      (∀ d' b, (b ≠ a ∨ ∀ i, i < k → backD d0 i ≠ some d') →
        dictGet2 t' d' b = dictGet2 t d' b) :=
  fixAux_walk a tot (countLE t d0 + 1) t d0 (Nat.lt_succ_self _) hpair hfloor

/-- C1 counterexample: with the entry `(0001-01-01, A) ↦ [5, 5]` and
`newTotal = 3`, the claim predicts the walk overwrites the entry and
stops at the (absent) previous day; the source instead overwrites and
then crashes with `OverflowError` evaluating
`date(1, 1, 1) - timedelta(days=1)` (line 60), so no state results. -/
theorem fix_prevdays_floor_crash :
    fix_prevdays [(⟨1, 1, 1⟩, [("A".toList, [5, 5])])] ⟨1, 1, 1⟩
      "A".toList 3 = none := by decide

theorem fix_prevdays_walk_spec_witness :
    ∃ (k : Nat) (t' : StatTable),
      fix_prevdays ([(⟨2020, 7, 2⟩, [("A".toList, [25, 15])]),
        (⟨2020, 7, 1⟩, [("A".toList, [10, 10])])] : StatTable) ⟨2020, 7, 2⟩
        "A".toList 20 = some t' ∧
      (∀ i, i < k → ∃ di ti ni, backD ⟨2020, 7, 2⟩ i = some di ∧
        dictGet2 ([(⟨2020, 7, 2⟩, [("A".toList, [25, 15])]),
          (⟨2020, 7, 1⟩, [("A".toList, [10, 10])])] : StatTable) di "A".toList =
          some [ti, ni] ∧ 20 < ti ∧
        dictGet2 t' di "A".toList =
          some [20, if ni - (ti - 20) < 0 then 0 else ni - (ti - 20)]) ∧
      (∃ dk, backD ⟨2020, 7, 2⟩ k = some dk ∧
        (dictGet ([(⟨2020, 7, 2⟩, [("A".toList, [25, 15])]),
          (⟨2020, 7, 1⟩, [("A".toList, [10, 10])])] : StatTable) dk = none ∨
         (∃ m, dictGet ([(⟨2020, 7, 2⟩, [("A".toList, [25, 15])]),
          (⟨2020, 7, 1⟩, [("A".toList, [10, 10])])] : StatTable) dk = some m ∧
          dictGet m "A".toList = none) ∨
         (∃ ti ni, dictGet2 ([(⟨2020, 7, 2⟩, [("A".toList, [25, 15])]),
          (⟨2020, 7, 1⟩, [("A".toList, [10, 10])])] : StatTable) dk "A".toList =
          some [ti, ni] ∧ ti ≤ 20))) ∧
      (∀ d' b, (b ≠ "A".toList ∨ ∀ i, i < k →
          backD ⟨2020, 7, 2⟩ i ≠ some d') →
        dictGet2 t' d' b =
          dictGet2 ([(⟨2020, 7, 2⟩, [("A".toList, [25, 15])]),
            (⟨2020, 7, 1⟩, [("A".toList, [10, 10])])] : StatTable) d' b) :=
  fix_prevdays_walk_spec
    ([(⟨2020, 7, 2⟩, [("A".toList, [25, 15])]),
     (⟨2020, 7, 1⟩, [("A".toList, [10, 10])])] : StatTable)
    ⟨2020, 7, 2⟩ "A".toList 20 (by decide) (by decide)

/-! ## C5: decimal rendering round-trips -/

theorem digitVal_digitChar {n : Nat} (h : n < 10) :
    digitVal (digitChar n) = n ∧ isDigitB (digitChar n) = true := by
  interval_cases n <;> exact ⟨by decide, by decide⟩

theorem digitsVal_append_singleton (xs : Str) (c : Char) :
    digitsVal (xs ++ [c]) = digitsVal xs * 10 + digitVal c := by
  unfold digitsVal
  rw [List.foldl_append]
  rfl

theorem natReprAux_spec : ∀ (f n : Nat), n < f →
    natReprAux f n ≠ [] ∧ (∀ c ∈ natReprAux f n, isDigitB c = true) ∧
    digitsVal (natReprAux f n) = n := by
  intro f
  induction f with
  | zero => intro n h; exact absurd h (Nat.not_lt_zero _)
  | succ f ih =>
    intro n h
    unfold natReprAux
    by_cases h10 : n < 10
    · rw [if_pos h10]
      obtain ⟨hval, hdig⟩ := digitVal_digitChar h10
      refine ⟨by simp, by simpa using hdig, ?_⟩
      show digitsVal [digitChar n] = n
      unfold digitsVal
      simp [hval]
    · rw [if_neg h10]
      have hd : n / 10 < f := by omega
      obtain ⟨hne, hdig, hval⟩ := ih (n / 10) hd
      refine ⟨by simp, ?_, ?_⟩
      · intro c hc
        rcases List.mem_append.mp hc with hc | hc
        · exact hdig c hc
        · rw [List.mem_singleton] at hc
          subst hc
          exact (digitVal_digitChar (by omega)).2
      · rw [digitsVal_append_singleton, hval,
          (digitVal_digitChar (show n % 10 < 10 by omega)).1]
        omega

theorem natRepr_spec (n : Nat) :
    natRepr n ≠ [] ∧ (∀ c ∈ natRepr n, isDigitB c = true) ∧
    digitsVal (natRepr n) = n :=
  natReprAux_spec (n + 1) n (Nat.lt_succ_self n)

theorem natReprAux_length : ∀ (f n k : Nat), n < f → 0 < k → n < 10 ^ k →
    (natReprAux f n).length ≤ k := by
  intro f
  induction f with
  | zero => intro n k h; exact absurd h (Nat.not_lt_zero _)
  | succ f ih =>
    intro n k h hk hpow
    unfold natReprAux
    by_cases h10 : n < 10
    · rw [if_pos h10]
      simpa using hk
    · rw [if_neg h10]
      rw [List.length_append]
      have hk2 : 2 ≤ k := by
        by_contra hc
        have hk1 : k = 1 := by omega
        subst hk1
        rw [pow_one] at hpow
        omega
      have h10k : 10 ^ k = 10 * 10 ^ (k - 1) := by
        conv_lhs => rw [show k = 1 + (k - 1) by omega]
        rw [pow_add, pow_one]
      have hdiv : n / 10 < 10 ^ (k - 1) := by omega
      have := ih (n / 10) (k - 1) (by omega) (by omega) hdiv
      simp only [List.length_singleton]
      omega

theorem natRepr_length {n k : Nat} (hk : 0 < k) (h : n < 10 ^ k) :
    (natRepr n).length ≤ k :=
  natReprAux_length (n + 1) n k (Nat.lt_succ_self n) hk h

theorem foldl_zeros (k : Nat) :
    List.foldl (fun a c => a * 10 + digitVal c) 0 (List.replicate k '0') = 0 := by
  induction k with
  | zero => rfl
  | succ j ih =>
    rw [List.replicate_succ, List.foldl_cons]
    simpa [digitVal] using ih

theorem digitsVal_padZero (w : Nat) (s : Str) :
    digitsVal (padZero w s) = digitsVal s := by
  unfold padZero digitsVal
  rw [List.foldl_append, foldl_zeros]

theorem padZero_length {s : Str} {w : Nat} (h : s.length ≤ w) :
    (padZero w s).length = w := by
  unfold padZero
  rw [List.length_append, List.length_replicate]
  omega

theorem padZero_digits {s : Str} (h : ∀ c ∈ s, isDigitB c = true) (w : Nat) :
    ∀ c ∈ padZero w s, isDigitB c = true := by
  intro c hc
  unfold padZero at hc
  rcases List.mem_append.mp hc with hc | hc
  · rw [List.eq_of_mem_replicate hc]
    decide
  · exact h c hc

theorem exists_four {l : Str} (h : l.length = 4) :
    ∃ a b c d, l = [a, b, c, d] := by
  rcases l with _ | ⟨a, _ | ⟨b, _ | ⟨c, _ | ⟨d, _ | ⟨e, rest⟩⟩⟩⟩⟩ <;>
    simp only [List.length] at h <;> first
    | omega
    | exact ⟨a, b, c, d, rfl⟩

theorem exists_two {l : Str} (h : l.length = 2) :
    ∃ a b, l = [a, b] := by
  rcases l with _ | ⟨a, _ | ⟨b, _ | ⟨c, rest⟩⟩⟩ <;>
    simp only [List.length] at h <;> first
    | omega
    | exact ⟨a, b, rfl⟩

theorem isoformat_format {d : PyDate} (h : validDate d = true) :
    ∃ y1 y2 y3 y4 m1 m2 d1 d2,
      isoformat d = [y1, y2, y3, y4, '-', m1, m2, '-', d1, d2] ∧
      [y1, y2, y3, y4, m1, m2, d1, d2].all isDigitB = true ∧
      digitsVal [y1, y2, y3, y4] = d.year ∧
      digitsVal [m1, m2] = d.month ∧ digitsVal [d1, d2] = d.day := by
  unfold validDate at h
  simp only [Bool.and_eq_true, decide_eq_true_eq] at h
  have hdim : daysInMonth d.year d.month ≤ 31 := by
    unfold daysInMonth
    split
    · split <;> omega
    · split <;> omega
  have hy : (padZero 4 (natRepr d.year)).length = 4 :=
    padZero_length (natRepr_length (by omega) (by norm_num; omega))
  have hm : (padZero 2 (natRepr d.month)).length = 2 :=
    padZero_length (natRepr_length (by omega) (by norm_num; omega))
  have hd : (padZero 2 (natRepr d.day)).length = 2 :=
    padZero_length (natRepr_length (by omega) (by norm_num; omega))
  obtain ⟨y1, y2, y3, y4, hey⟩ := exists_four hy
  obtain ⟨m1, m2, hem⟩ := exists_two hm
  obtain ⟨d1, d2, hed⟩ := exists_two hd
  refine ⟨y1, y2, y3, y4, m1, m2, d1, d2, ?_, ?_, ?_, ?_, ?_⟩
  · unfold isoformat
    rw [hey, hem, hed]
    rfl
  · have hally := padZero_digits (natRepr_spec d.year).2.1 4
    have hallm := padZero_digits (natRepr_spec d.month).2.1 2
    have halld := padZero_digits (natRepr_spec d.day).2.1 2
    rw [hey] at hally
    rw [hem] at hallm
    rw [hed] at halld
    simp only [List.all_eq_true]
    intro c hc
    simp only [List.mem_cons, List.not_mem_nil, or_false] at hc
    rcases hc with rfl | rfl | rfl | rfl | rfl | rfl | rfl | rfl
    · exact hally c (by simp)
    · exact hally c (by simp)
    · exact hally c (by simp)
    · exact hally c (by simp)
    · exact hallm c (by simp)
    · exact hallm c (by simp)
    · exact halld c (by simp)
    · exact halld c (by simp)
  · rw [← hey, digitsVal_padZero]
    exact (natRepr_spec d.year).2.2
  · rw [← hem, digitsVal_padZero]
    exact (natRepr_spec d.month).2.2
  · rw [← hed, digitsVal_padZero]
    exact (natRepr_spec d.day).2.2

theorem pyWS_of_digit {c : Char} (h : isDigitB c = true) : pyWS c = false := by
  unfold isDigitB at h
  unfold pyWS
  simp only [Bool.and_eq_true, decide_eq_true_eq] at h
  simp only [Bool.or_eq_false_iff, decide_eq_false_iff_not]
  refine ⟨⟨⟨⟨⟨?_, ?_⟩, ?_⟩, ?_⟩, ?_⟩, ?_⟩ <;>
    (rintro rfl; revert h; decide)

theorem pyStrip_id {l : Str}
    (hh : ∀ c, l.head? = some c → pyWS c = false)
    (hl : ∀ c, l.getLast? = some c → pyWS c = false) : pyStrip l = l := by
  unfold pyStrip
  have h1 : l.dropWhile pyWS = l := by
    cases l with
    | nil => rfl
    | cons c cs =>
      rw [List.dropWhile_cons]
      rw [hh c rfl]
      simp
  rw [h1]
  have h2 : l.reverse.dropWhile pyWS = l.reverse := by
    cases hr : l.reverse with
    | nil => rfl
    | cons c cs =>
      rw [List.dropWhile_cons]
      have : l.getLast? = some c := by
        rw [← List.head?_reverse, hr]
        rfl
      rw [hl c this]
      simp
  rw [h2, List.reverse_reverse]


theorem digits?_of_all {s : Str} (hne : s ≠ [])
    (hdig : ∀ c ∈ s, isDigitB c = true) : digits? s = some (digitsVal s) := by
  unfold digits?
  rw [if_pos ⟨hne, List.all_eq_true.mpr (fun c hc => hdig c hc)⟩]


theorem intRepr_digit_or_dash {i : Int} :
    ∀ c ∈ intRepr i, isDigitB c = true ∨ c = '-' := by
  intro c hc
  unfold intRepr at hc
  split at hc
  · rcases List.mem_cons.mp hc with rfl | hc
    · exact Or.inr rfl
    · exact Or.inl ((natRepr_spec i.natAbs).2.1 c hc)
  · exact Or.inl ((natRepr_spec i.natAbs).2.1 c hc)


theorem mem_of_head?_eq {α : Type} {l : List α} {x : α}
    (hx : l.head? = some x) : x ∈ l := by
  cases l with
  | nil => cases hx
  | cons c cs =>
    rw [List.head?_cons] at hx
    cases hx
    exact List.mem_cons_self _ _

theorem mem_of_getLast?_eq {α : Type} {l : List α} {x : α}
    (hx : l.getLast? = some x) : x ∈ l := by
  obtain ⟨h, hx'⟩ := List.mem_getLast?_eq_getLast (Option.mem_def.mpr hx)
  rw [hx']
  exact List.getLast_mem h

theorem fromisoformat_isoformat {d : PyDate} (h : validDate d = true) :
    fromisoformat? (isoformat d) = some d := by
  obtain ⟨y1, y2, y3, y4, m1, m2, d1, d2, hiso, hdig, hy, hm, hd⟩ :=
    isoformat_format h
  rw [hiso]
  show (if '-' = '-' ∧ '-' = '-' ∧
      [y1, y2, y3, y4, m1, m2, d1, d2].all isDigitB = true then
    if validDate ⟨digitsVal [y1, y2, y3, y4], digitsVal [m1, m2],
        digitsVal [d1, d2]⟩ = true then
      some ⟨digitsVal [y1, y2, y3, y4], digitsVal [m1, m2],
        digitsVal [d1, d2]⟩
    else none
  else none) = some d
  rw [if_pos ⟨rfl, rfl, hdig⟩, hy, hm, hd]
  have heta : (⟨d.year, d.month, d.day⟩ : PyDate) = d := rfl
  rw [heta, if_pos h]

theorem pyInt?_eq (s : Str) :
    pyInt? s = match pyStrip s with
      | [] => none
      | c :: rest =>
        if c = '+' then (digits? rest).map (fun k => (k : Int))
        else if c = '-' then (digits? rest).map (fun k => -(k : Int))
        else (digits? (c :: rest)).map (fun k => (k : Int)) := rfl

theorem pyInt?_cons {s : Str} {c : Char} {rest : Str}
    (h : pyStrip s = c :: rest) :
    pyInt? s =
      if c = '+' then (digits? rest).map (fun k => (k : Int))
      else if c = '-' then (digits? rest).map (fun k => -(k : Int))
      else (digits? (c :: rest)).map (fun k => (k : Int)) := by
  rw [pyInt?_eq, h]

theorem pyInt?_natRepr (n : Nat) : pyInt? (natRepr n) = some (n : Int) := by
  obtain ⟨hne, hdig, hval⟩ := natRepr_spec n
  obtain ⟨c, cs, hr⟩ := List.exists_cons_of_ne_nil hne
  have hstrip : pyStrip (natRepr n) = natRepr n :=
    pyStrip_id
      (fun x hx => pyWS_of_digit (hdig x (mem_of_head?_eq hx)))
      (fun x hx => pyWS_of_digit (hdig x (mem_of_getLast?_eq hx)))
  have hcd : isDigitB c = true := hdig c (by rw [hr]; exact List.mem_cons_self c cs)
  have hplus : ¬c = '+' := by
    rintro rfl
    revert hcd
    decide
  have hminus : ¬c = '-' := by
    rintro rfl
    revert hcd
    decide
  rw [pyInt?_cons (hstrip.trans hr), if_neg hplus, if_neg hminus, ← hr,
    digits?_of_all hne hdig, hval]
  rfl

theorem pyInt?_intRepr (i : Int) : pyInt? (intRepr i) = some i := by
  by_cases hneg : i < 0
  · unfold intRepr
    rw [if_pos hneg]
    obtain ⟨hne, hdig, hval⟩ := natRepr_spec i.natAbs
    have hstrip : pyStrip ('-' :: natRepr i.natAbs) =
        '-' :: natRepr i.natAbs := by
      refine pyStrip_id ?_ ?_
      · intro x hx
        rw [List.head?_cons] at hx
        cases hx
        decide
      · intro x hx
        rcases List.mem_cons.mp (mem_of_getLast?_eq hx) with rfl | hmem
        · decide
        · exact pyWS_of_digit (hdig x hmem)
    rw [pyInt?_cons hstrip, if_neg (by decide : ¬('-' : Char) = '+'),
      if_pos rfl, digits?_of_all hne hdig, hval]
    show some (-(i.natAbs : Int)) = some i
    congr 1
    omega
  · unfold intRepr
    rw [if_neg hneg, pyInt?_natRepr]
    congr 1
    omega

theorem intRepr_ne_nil (i : Int) : intRepr i ≠ [] := by
  unfold intRepr
  split
  · exact List.cons_ne_nil _ _
  · exact (natRepr_spec i.natAbs).1

theorem comma_not_mem_intRepr (i : Int) : ',' ∉ intRepr i := by
  intro hc
  rcases intRepr_digit_or_dash ',' hc with h | h
  · exact absurd h (by decide)
  · exact absurd h (by decide)

theorem comma_not_mem_isoformat {d : PyDate} (hd : validDate d = true) :
    ',' ∉ isoformat d := by
  obtain ⟨y1, y2, y3, y4, m1, m2, d1, d2, hiso, hdig, -, -, -⟩ :=
    isoformat_format hd
  rw [hiso]
  intro hc
  have hall := List.all_eq_true.mp hdig
  simp only [List.mem_cons, List.not_mem_nil, or_false] at hc
  rcases hc with rfl | rfl | rfl | rfl | hc | rfl | rfl | hc | rfl | rfl
  · exact absurd (hall ',' (by simp)) (by decide)
  · exact absurd (hall ',' (by simp)) (by decide)
  · exact absurd (hall ',' (by simp)) (by decide)
  · exact absurd (hall ',' (by simp)) (by decide)
  · exact absurd hc (by decide)
  · exact absurd (hall ',' (by simp)) (by decide)
  · exact absurd (hall ',' (by simp)) (by decide)
  · exact absurd hc (by decide)
  · exact absurd (hall ',' (by simp)) (by decide)
  · exact absurd (hall ',' (by simp)) (by decide)

theorem splitComma_no_comma {x : Str} (hx : ',' ∉ x) : splitComma x = [x] := by
  induction x with
  | nil => rfl
  | cons c cs ih =>
    have hc : ¬c = ',' := by
      intro h
      subst h
      exact hx (List.mem_cons_self _ _)
    have hcs : ',' ∉ cs := fun h => hx (List.mem_cons_of_mem _ h)
    show splitComma (c :: cs) = [c :: cs]
    unfold splitComma
    rw [if_neg hc, ih hcs]

theorem splitComma_append {x : Str} (r : Str) (hx : ',' ∉ x) :
    splitComma (x ++ ',' :: r) = x :: splitComma r := by
  induction x with
  | nil =>
    show splitComma (',' :: r) = [] :: splitComma r
    conv_lhs => unfold splitComma
    rw [if_pos rfl]
  | cons c cs ih =>
    have hc : ¬c = ',' := by
      intro h
      subst h
      exact hx (List.mem_cons_self _ _)
    have hcs : ',' ∉ cs := fun h => hx (List.mem_cons_of_mem _ h)
    show splitComma (c :: (cs ++ ',' :: r)) = (c :: cs) :: splitComma r
    conv_lhs => unfold splitComma
    rw [if_neg hc, ih hcs]

theorem pyStrip_row {d : PyDate} (hd : validDate d = true) (a : Str)
    (t n : Int) :
    pyStrip (isoformat d ++ ',' :: (a ++ ',' :: (intRepr t ++ ',' :: intRepr n))) =
      isoformat d ++ ',' :: (a ++ ',' :: (intRepr t ++ ',' :: intRepr n)) := by
  obtain ⟨y1, y2, y3, y4, m1, m2, d1, d2, hiso, hdig, -, -, -⟩ :=
    isoformat_format hd
  refine pyStrip_id ?_ ?_
  · intro c hc
    rw [hiso] at hc
    simp only [List.cons_append, List.head?_cons, Option.some.injEq] at hc
    subst hc
    exact pyWS_of_digit (List.all_eq_true.mp hdig y1 (by simp))
  · intro c hc
    have hrow : isoformat d ++ ',' :: (a ++ ',' :: (intRepr t ++ ',' :: intRepr n)) =
        (isoformat d ++ ',' :: (a ++ ',' :: (intRepr t ++ [',']))) ++ intRepr n := by
      simp
    rw [hrow, List.getLast?_append_of_ne_nil _ (intRepr_ne_nil n)] at hc
    rcases intRepr_digit_or_dash c (mem_of_getLast?_eq hc) with h | rfl
    · exact pyWS_of_digit h
    · decide

theorem splitComma_row {d : PyDate} (hd : validDate d = true) {a : Str}
    (ha : ',' ∉ a) (t n : Int) :
    splitComma (pyStrip (isoformat d ++ ',' :: (a ++ ',' :: (intRepr t ++ ',' :: intRepr n)))) =
      [isoformat d, a, intRepr t, intRepr n] := by
  rw [pyStrip_row hd a t n,
    splitComma_append _ (comma_not_mem_isoformat hd),
    splitComma_append _ ha,
    splitComma_append _ (comma_not_mem_intRepr t),
    splitComma_no_comma (comma_not_mem_intRepr n)]

theorem lineDate?_fields {line ds a ts ns : Str}
    (h : splitComma (pyStrip line) = [ds, a, ts, ns]) :
    lineDate? line = fromisoformat? ds := by
  unfold lineDate?
  rw [h]

theorem lineFull?_fields {line ds a ts ns : Str}
    (h : splitComma (pyStrip line) = [ds, a, ts, ns]) :
    lineFull? line =
      match fromisoformat? ds, pyInt? ts, pyInt? ns with
      | some d, some t, some n => some (d, a, t, n)
      | _, _, _ => none := by
  unfold lineFull?
  rw [h]

theorem lineFull?_row {d : PyDate} (hd : validDate d = true) {a : Str}
    (ha : ',' ∉ a) (t n : Int) :
    lineFull? (isoformat d ++ ',' :: (a ++ ',' :: (intRepr t ++ ',' :: intRepr n))) =
      some (d, a, t, n) := by
  rw [lineFull?_fields (splitComma_row hd ha t n),
    fromisoformat_isoformat hd, pyInt?_intRepr, pyInt?_intRepr]

theorem lineDate?_row {d : PyDate} (hd : validDate d = true) {a : Str}
    (ha : ',' ∉ a) (t n : Int) :
    lineDate? (isoformat d ++ ',' :: (a ++ ',' :: (intRepr t ++ ',' :: intRepr n))) =
      some d :=
  lineFull?_date (lineFull?_row hd ha t n)

theorem entry_two {st : StatTable} {d : PyDate} {a : Str}
    (h : (dictGet2 st d a).map List.length = some 2) :
    ∃ t n : Int, dictGet2 st d a = some [t, n] := by
  cases he : dictGet2 st d a with
  | none => rw [he] at h; cases h
  | some e =>
    rw [he] at h
    have hlen : e.length = 2 := by simpa using h
    rcases e with _ | ⟨t, e2⟩
    · exact absurd hlen (by decide)
    rcases e2 with _ | ⟨n, e3⟩
    · exfalso
      simp only [List.length_cons, List.length_nil] at hlen
      omega
    rcases e3 with _ | ⟨x, xs⟩
    · exact ⟨t, n, rfl⟩
    · exfalso
      simp only [List.length_cons] at hlen
      omega

theorem rowLine_eq {g : Gen} {d : PyDate} {a : Str} {t n : Int}
    (h : dictGet2 g.stat_data d a = some [t, n]) :
    rowLine g d a =
      isoformat d ++ ',' :: (a ++ ',' :: (intRepr t ++ ',' :: intRepr n)) := by
  unfold rowLine
  rw [h]

theorem lineFull?_rowLine {g : Gen} {d : PyDate} {a : Str} {t n : Int}
    (hd : validDate d = true) (ha : ',' ∉ a)
    (he : dictGet2 g.stat_data d a = some [t, n]) :
    lineFull? (rowLine g d a) = some (d, a, t, n) := by
  rw [rowLine_eq he]
  exact lineFull?_row hd ha t n

theorem lineDate?_rowLine {g : Gen} {d : PyDate} {a : Str} {t n : Int}
    (hd : validDate d = true) (ha : ',' ∉ a)
    (he : dictGet2 g.stat_data d a = some [t, n]) :
    lineDate? (rowLine g d a) = some d := by
  rw [rowLine_eq he]
  exact lineDate?_row hd ha t n

theorem dictGet2_none_of_not_key {t : StatTable} {d : PyDate}
    (h : d ∉ tkeys t) (a : Str) : dictGet2 t d a = none := by
  unfold dictGet2
  cases hg : dictGet t d with
  | none => rfl
  | some m => exact absurd (dictGet_isSome_iff.mp (by rw [hg]; rfl)) h

theorem dictGet2_none_of_area {g : Gen} {d : PyDate} {a : Str}
    (hsub : ∀ q ∈ g.stat_data, ∀ p ∈ q.2, p.1 ∈ g.area_list)
    (ha : a ∉ g.area_list) : dictGet2 g.stat_data d a = none := by
  cases he : dictGet2 g.stat_data d a with
  | none => rfl
  | some e =>
    exfalso
    unfold dictGet2 at he
    cases hg : dictGet g.stat_data d with
    | none => rw [hg] at he; cases he
    | some mm =>
      rw [hg] at he
      have he' : dictGet mm a = some e := he
      exact ha (hsub (d, mm) (dictGet_mem hg) (a, e) (dictGet_mem he'))

theorem rowsForDate_some {st : StatTable} {m : AreaMap} {d : PyDate}
    (hm : dictGet st d = some m) :
    ∀ areas : List Str,
      (∀ a ∈ areas, (dictGet2 st d a).map List.length = some 2) →
      ∃ rs, rowsForDate m d areas = some rs := by
  intro areas
  induction areas with
  | nil => intro _; exact ⟨[], rfl⟩
  | cons a rest ih =>
    intro hcov
    obtain ⟨t, n, he⟩ := entry_two (hcov a (List.mem_cons_self _ _))
    have he' : dictGet m a = some [t, n] := by
      have he2 : ((some m).bind (fun mm => dictGet mm a)) = some [t, n] := by
        rw [← hm]
        exact he
      exact he2
    obtain ⟨rs, hrs⟩ := ih (fun a' ha' => hcov a' (List.mem_cons_of_mem _ ha'))
    refine ⟨(isoformat d ++ ',' :: (a ++ ',' :: (intRepr t ++ ',' :: intRepr n))) :: rs, ?_⟩
    show rowsForDate m d (a :: rest) = _
    conv_lhs => unfold rowsForDate
    simp only [he', formatRow, hrs, Option.map_some']

theorem csvRows_some {g : Gen}
    (hcov : ∀ d ∈ tkeys g.stat_data, ∀ a ∈ g.area_list,
      (dictGet2 g.stat_data d a).map List.length = some 2) :
    ∀ ds : List PyDate, (∀ d ∈ ds, d ∈ tkeys g.stat_data) →
      ∃ rows, csvRows g ds = some rows := by
  intro ds
  induction ds with
  | nil => intro _; exact ⟨[], rfl⟩
  | cons d rest ih =>
    intro hds
    have hdk : d ∈ tkeys g.stat_data := hds d (List.mem_cons_self _ _)
    have hms : (dictGet g.stat_data d).isSome = true :=
      dictGet_isSome_iff.mpr hdk
    obtain ⟨m, hm⟩ := Option.isSome_iff_exists.mp hms
    obtain ⟨rs, hrs⟩ := rowsForDate_some hm g.area_list (hcov d hdk)
    obtain ⟨rows, hrows⟩ := ih (fun x hx => hds x (List.mem_cons_of_mem _ hx))
    refine ⟨rs ++ rows, ?_⟩
    show csvRows g (d :: rest) = _
    conv_lhs => unfold csvRows
    simp only [hm, hrs, hrows, Option.map_some']

theorem cacheIns_fold_absent {d : PyDate} {a : Str} :
    ∀ (rs : List (PyDate × Str × Int × Int)) (st : StatTable),
      (∀ r ∈ rs, ¬(r.1 = d ∧ r.2.1 = a)) →
      dictGet2 (rs.foldl cacheIns st) d a = dictGet2 st d a := by
  intro rs
  induction rs with
  | nil => intro st _; rfl
  | cons r rest ih =>
    intro st hno
    rw [List.foldl_cons, ih _ (fun x hx => hno x (List.mem_cons_of_mem _ hx))]
    have hr := hno r (List.mem_cons_self _ _)
    unfold cacheIns
    refine dictGet2_set2_ne _ _ _ _ _ _ ?_
    by_cases h1 : r.1 = d
    · exact Or.inr (fun h2 => hr ⟨h1, h2⟩)
    · exact Or.inl h1

theorem cacheIns_fold_present {d : PyDate} {a : Str} {e : Entry} :
    ∀ (rs : List (PyDate × Str × Int × Int)) (st : StatTable),
      (∀ r ∈ rs, r.1 = d → r.2.1 = a → [r.2.2.1, r.2.2.2] = e) →
      (∃ r ∈ rs, r.1 = d ∧ r.2.1 = a) →
      dictGet2 (rs.foldl cacheIns st) d a = some e := by
  intro rs
  induction rs with
  | nil =>
    intro st _ hex
    obtain ⟨r, hr, -⟩ := hex
    cases hr
  | cons r rest ih =>
    intro st hval hex
    rw [List.foldl_cons]
    by_cases hrest : ∃ r' ∈ rest, r'.1 = d ∧ r'.2.1 = a
    · exact ih _ (fun x hx => hval x (List.mem_cons_of_mem _ hx)) hrest
    · obtain ⟨r0, hr0, hk⟩ := hex
      rcases List.mem_cons.mp hr0 with rfl | hmem
      · rw [cacheIns_fold_absent rest _ (fun x hx hc => hrest ⟨x, hx, hc⟩)]
        unfold cacheIns
        rw [hk.1, hk.2, dictGet2_set2_self,
          hval r0 (List.mem_cons_self _ _) hk.1 hk.2]
      · exact absurd ⟨r0, hmem, hk⟩ hrest

theorem parsed_rows_mem {g : Gen} {ds : List PyDate} {r : PyDate × Str × Int × Int}
    (hds : ∀ d ∈ ds, d ∈ tkeys g.stat_data)
    (hvalid : ∀ d ∈ tkeys g.stat_data, validDate d = true)
    (hcomma : ∀ a ∈ g.area_list, ',' ∉ a)
    (hcov : ∀ d ∈ tkeys g.stat_data, ∀ a ∈ g.area_list,
      (dictGet2 g.stat_data d a).map List.length = some 2)
    (hr : r ∈ (ds.flatMap (fun d => g.area_list.map (rowLine g d))).filterMap lineFull?) :
    r.1 ∈ tkeys g.stat_data ∧ r.2.1 ∈ g.area_list ∧
      dictGet2 g.stat_data r.1 r.2.1 = some [r.2.2.1, r.2.2.2] := by
  obtain ⟨x, hx, hpx⟩ := List.mem_filterMap.mp hr
  obtain ⟨d, hd, hx2⟩ := List.mem_flatMap.mp hx
  obtain ⟨a, ha, rfl⟩ := List.mem_map.mp hx2
  have hdk := hds d hd
  obtain ⟨t, n, he⟩ := entry_two (hcov d hdk a ha)
  rw [lineFull?_rowLine (hvalid d hdk) (hcomma a ha) he] at hpx
  cases hpx
  exact ⟨hdk, ha, he⟩

theorem parsed_rows_cover {g : Gen} {ds : List PyDate} {d : PyDate} {a : Str}
    (hds : ∀ d ∈ ds, d ∈ tkeys g.stat_data)
    (hvalid : ∀ d ∈ tkeys g.stat_data, validDate d = true)
    (hcomma : ∀ a ∈ g.area_list, ',' ∉ a)
    (hcov : ∀ d ∈ tkeys g.stat_data, ∀ a ∈ g.area_list,
      (dictGet2 g.stat_data d a).map List.length = some 2)
    (hd : d ∈ ds) (ha : a ∈ g.area_list) :
    ∃ t n : Int,
      (d, a, t, n) ∈ (ds.flatMap (fun d => g.area_list.map (rowLine g d))).filterMap lineFull? := by
  have hdk := hds d hd
  obtain ⟨t, n, he⟩ := entry_two (hcov d hdk a ha)
  refine ⟨t, n, List.mem_filterMap.mpr ⟨rowLine g d a, ?_,
    lineFull?_rowLine (hvalid d hdk) (hcomma a ha) he⟩⟩
  exact List.mem_flatMap.mpr ⟨d, hd, List.mem_map.mpr ⟨a, ha, rfl⟩⟩

theorem parsed_dates_mem {g : Gen} {ds : List PyDate} {x : PyDate}
    (hds : ∀ d ∈ ds, d ∈ tkeys g.stat_data)
    (hvalid : ∀ d ∈ tkeys g.stat_data, validDate d = true)
    (hcomma : ∀ a ∈ g.area_list, ',' ∉ a)
    (hcov : ∀ d ∈ tkeys g.stat_data, ∀ a ∈ g.area_list,
      (dictGet2 g.stat_data d a).map List.length = some 2)
    (hx : x ∈ (ds.flatMap (fun d => g.area_list.map (rowLine g d))).filterMap lineDate?) :
    x ∈ tkeys g.stat_data := by
  obtain ⟨l, hl, hpl⟩ := List.mem_filterMap.mp hx
  obtain ⟨d, hd, hl2⟩ := List.mem_flatMap.mp hl
  obtain ⟨a, ha, rfl⟩ := List.mem_map.mp hl2
  have hdk := hds d hd
  obtain ⟨t, n, he⟩ := entry_two (hcov d hdk a ha)
  rw [lineDate?_rowLine (hvalid d hdk) (hcomma a ha) he] at hpl
  cases hpl
  exact hdk

theorem parsed_dates_cover {g : Gen} {ds : List PyDate} {d : PyDate}
    (hds : ∀ d ∈ ds, d ∈ tkeys g.stat_data)
    (hvalid : ∀ d ∈ tkeys g.stat_data, validDate d = true)
    (hcomma : ∀ a ∈ g.area_list, ',' ∉ a)
    (hcov : ∀ d ∈ tkeys g.stat_data, ∀ a ∈ g.area_list,
      (dictGet2 g.stat_data d a).map List.length = some 2)
    (hal : g.area_list ≠ []) (hd : d ∈ ds) :
    d ∈ (ds.flatMap (fun d => g.area_list.map (rowLine g d))).filterMap lineDate? := by
  obtain ⟨a, ha⟩ := List.exists_mem_of_ne_nil g.area_list hal
  have hdk := hds d hd
  obtain ⟨t, n, he⟩ := entry_two (hcov d hdk a ha)
  refine List.mem_filterMap.mpr ⟨rowLine g d a, ?_,
    lineDate?_rowLine (hvalid d hdk) (hcomma a ha) he⟩
  exact List.mem_flatMap.mpr ⟨d, hd, List.mem_map.mpr ⟨a, ha, rfl⟩⟩

/-- C5: on a well-formed generator state — non-empty table and area list,
every key a representable calendar date, comma-free area names, every
(date, listed-area) cell a two-element entry, and no recorded area
outside the area list — serializing with `to_csvfile` and loading the
produced lines with `load_cache` into a fresh accumulator reproduces the
same stat table (extensionally, i.e. as Python dict equality), with
MinDate set to the minimum date occurring in the file. -/
theorem cache_roundtrip_wf (g : Gen)
    (hne : g.stat_data ≠ [])
    (hal : g.area_list ≠ [])
    (hvalid : ∀ d ∈ tkeys g.stat_data, validDate d = true)
    (hcomma : ∀ a ∈ g.area_list, ',' ∉ a)
    (hcov : ∀ d ∈ tkeys g.stat_data, ∀ a ∈ g.area_list,
      (dictGet2 g.stat_data d a).map List.length = some 2)
    (hsub : ∀ q ∈ g.stat_data, ∀ p ∈ q.2, p.1 ∈ g.area_list) :
    ∃ lines g' m,
      to_csvfile g = some lines ∧
      load_cache Gen.init (some lines) = some (g', true) ∧
      (∀ d a, dictGet2 g'.stat_data d a = dictGet2 g.stat_data d a) ∧
      g'.min_date = some m ∧ m ∈ tkeys g.stat_data ∧
      (∀ d ∈ tkeys g.stat_data, dateLeB m d = true) := by
  have hds : ∀ d ∈ sortDates (g.stat_data.map Prod.fst),
      d ∈ tkeys g.stat_data := fun d hd => mem_sortDates.mp hd
  obtain ⟨rows, hrows⟩ :=
    csvRows_some hcov (sortDates (g.stat_data.map Prod.fst)) hds
  have hroweq : rows = (sortDates (g.stat_data.map Prod.fst)).flatMap
      (fun d => g.area_list.map (rowLine g d)) := csvRows_eq hds hrows
  have hcsv : to_csvfile g = some (headerLine :: rows) := by
    unfold to_csvfile
    rw [hrows]
  have hDfull : (headerLine :: rows).filterMap lineFull? =
      rows.filterMap lineFull? := List.filterMap_cons_none (by decide)
  have hDdate : (headerLine :: rows).filterMap lineDate? =
      rows.filterMap lineDate? := List.filterMap_cons_none (by decide)
  have hDne : rows.filterMap lineDate? ≠ [] := by
    obtain ⟨q, hq⟩ := List.exists_mem_of_ne_nil g.stat_data hne
    have hk : q.1 ∈ tkeys g.stat_data := List.mem_map.mpr ⟨q, hq, rfl⟩
    have hdds : q.1 ∈ sortDates (g.stat_data.map Prod.fst) :=
      mem_sortDates.mpr hk
    have hmem := parsed_dates_cover hds hvalid hcomma hcov hal hdds
    rw [hroweq]
    intro hc
    rw [hc] at hmem
    simp at hmem
  have hsome := minUpd_fold_isSome (rows.filterMap lineDate?) none
    (Or.inr hDne)
  rw [Option.isSome_iff_exists] at hsome
  obtain ⟨m, hm⟩ := hsome
  have hmin := minUpd_fold (rows.filterMap lineDate?) none m hm
  have hmDs : m ∈ rows.filterMap lineDate? :=
    hmin.1.resolve_left (fun hc => Option.noConfusion hc)
  have hmk : m ∈ tkeys g.stat_data := by
    refine parsed_dates_mem hds hvalid hcomma hcov ?_
    rw [← hroweq]
    exact hmDs
  have hmle : ∀ d ∈ tkeys g.stat_data, dateLeB m d = true := by
    intro d hd
    refine hmin.2.1 d ?_
    rw [hroweq]
    exact parsed_dates_cover hds hvalid hcomma hcov hal (mem_sortDates.mpr hd)
  refine ⟨headerLine :: rows, Gen.mk (some m)
    (((headerLine :: rows).filterMap lineFull?).foldl cacheIns []) [],
    m, hcsv, ?_, ?_, rfl, hmk, hmle⟩
  · unfold load_cache
    have hgoal : (match (headerLine :: rows).foldl cacheLine
        (Gen.init.stat_data, none) with
      | (_, none) => none
      | (stat, some d) => some (Gen.mk (some d) stat Gen.init.area_list, true)) =
        some (Gen.mk (some m)
          (((headerLine :: rows).filterMap lineFull?).foldl cacheIns []) [],
          true) := by
      rw [cache_fold_char, hDdate, hm]
      rfl
    exact hgoal
  · intro d a
    show dictGet2 (((headerLine :: rows).filterMap lineFull?).foldl cacheIns []) d a =
      dictGet2 g.stat_data d a
    rw [hDfull, hroweq]
    by_cases hdk : d ∈ tkeys g.stat_data
    · by_cases hak : a ∈ g.area_list
      · obtain ⟨t, n, he⟩ := entry_two (hcov d hdk a hak)
        rw [he]
        refine cacheIns_fold_present _ _ ?_ ?_
        · intro r hrmem h1 h2
          have h3 := (parsed_rows_mem hds hvalid hcomma hcov hrmem).2.2
          rw [h1, h2, he] at h3
          exact (Option.some.inj h3).symm
        · obtain ⟨t', n', hmem'⟩ := parsed_rows_cover hds hvalid hcomma hcov
            (mem_sortDates.mpr hdk) hak
          exact ⟨(d, a, t', n'), hmem', rfl, rfl⟩
      · have hno : ∀ r ∈ ((sortDates (g.stat_data.map Prod.fst)).flatMap
            (fun d => g.area_list.map (rowLine g d))).filterMap lineFull?,
            ¬(r.1 = d ∧ r.2.1 = a) := by
          intro r hrmem hc
          exact hak (hc.2 ▸ (parsed_rows_mem hds hvalid hcomma hcov hrmem).2.1)
        rw [cacheIns_fold_absent _ _ hno, dictGet2_none_of_area hsub hak]
        rfl
    · have hno : ∀ r ∈ ((sortDates (g.stat_data.map Prod.fst)).flatMap
          (fun d => g.area_list.map (rowLine g d))).filterMap lineFull?,
          ¬(r.1 = d ∧ r.2.1 = a) := by
        intro r hrmem hc
        exact hdk (hc.1 ▸ (parsed_rows_mem hds hvalid hcomma hcov hrmem).1)
      rw [cacheIns_fold_absent _ _ hno, dictGet2_none_of_not_key hdk a]
      rfl

/-- C5 counterexample: the claim quantifies over every table, but on the
empty table the round trip does not reproduce anything: `to_csvfile`
emits just the header line, and `load_cache` on that file crashes with an
`AttributeError` (line 43) because no line carries a date, instead of
returning a reloaded state. -/
theorem cache_roundtrip_fails_empty :
    to_csvfile Gen.init = some [headerLine] ∧
    load_cache Gen.init (some [headerLine]) = none := by decide

theorem cache_roundtrip_wf_witness :
    ∃ lines g' m,
      to_csvfile (Gen.mk none [(⟨2020, 1, 2⟩, [(['A'], [5, 3])])] [['A']]) =
        some lines ∧
      load_cache Gen.init (some lines) = some (g', true) ∧
      (∀ d a, dictGet2 g'.stat_data d a =
        dictGet2 (Gen.mk none [(⟨2020, 1, 2⟩, [(['A'], [5, 3])])]
          [['A']]).stat_data d a) ∧
      g'.min_date = some m ∧
      m ∈ tkeys (Gen.mk none [(⟨2020, 1, 2⟩, [(['A'], [5, 3])])]
        [['A']]).stat_data ∧
      (∀ d ∈ tkeys (Gen.mk none [(⟨2020, 1, 2⟩, [(['A'], [5, 3])])]
        [['A']]).stat_data, dateLeB m d = true) :=
  cache_roundtrip_wf (Gen.mk none [(⟨2020, 1, 2⟩, [(['A'], [5, 3])])] [['A']])
    (by decide) (by decide) (by decide) (by decide) (by decide) (by decide)
